import Mathlib

/-!
Verification of the goodbirds-site mega-map builder
(`scripts/build_mega_map.py`).

The Python source is shallowly embedded: each function of the script is
translated into an executable Lean definition over explicit data, and the
claims of the specification are settled as theorems about those
definitions.

Calls into external libraries (`unicodedata.normalize`, `str.lower`,
`str.upper` and the character classes of the `re` module) are modelled by
a `UnicodeModel`: a bundle of character tables supplied as a parameter.
Theorems that need facts about those tables (for instance that NFKD and
lower-casing fix the characters `a`–`z`, `0`–`9` and the space) take them
as explicit hypotheses, which hold for the real Unicode tables; concrete
evaluations use `asciiModel`, the restriction of the tables to ASCII.
-/

/-- Character tables of the external Unicode machinery used by the script:
NFKD decomposition (`unicodedata.normalize("NFKD", _)`), lower- and
upper-casing (`str.lower` / `str.upper`), and the `re` classes `\s` and
`\w` (also used by `str.strip`). -/
structure UnicodeModel where
  nfkd : Char → List Char
  lower : Char → Char
  upper : Char → Char
  isSpace : Char → Bool
  isWord : Char → Bool

/-- The apostrophe character, written by code point. -/
def aposChar : Char := Char.ofNat 39

/-- The opening-brace character, written by code point. -/
def obraceChar : Char := Char.ofNat 123

/-- ASCII instantiation of the Unicode tables; on the ASCII range it agrees
with the real tables used by the script. -/
def asciiModel : UnicodeModel where
  nfkd c := [c]
  lower c := if 65 ≤ c.toNat ∧ c.toNat ≤ 90 then Char.ofNat (c.toNat + 32) else c
  upper c := if 97 ≤ c.toNat ∧ c.toNat ≤ 122 then Char.ofNat (c.toNat - 32) else c
  isSpace c := c.toNat = 32 ∨ c.toNat = 9 ∨ c.toNat = 10 ∨ c.toNat = 13 ∨
    c.toNat = 11 ∨ c.toNat = 12
  isWord c := (97 ≤ c.toNat ∧ c.toNat ≤ 122) ∨ (65 ≤ c.toNat ∧ c.toNat ≤ 90) ∨
    (48 ≤ c.toNat ∧ c.toNat ≤ 57) ∨ c.toNat = 95

/-- The character class `[a-z0-9 ]` of `PUNCT_RE`: the characters the
normalizer keeps. -/
def isKeep (c : Char) : Bool :=
  (97 ≤ c.toNat ∧ c.toNat ≤ 122) ∨ (48 ≤ c.toNat ∧ c.toNat ≤ 57) ∨ c.toNat = 32

/-- NFKD applied to a whole character list. -/
def nfkdL (M : UnicodeModel) (l : List Char) : List Char := l.flatMap M.nfkd

/-- Python `str.strip()`: drop whitespace from both ends. -/
def pstripL (M : UnicodeModel) (l : List Char) : List Char :=
  ((l.dropWhile M.isSpace).reverse.dropWhile M.isSpace).reverse

/-- `str.strip()` on a `String`. -/
def pstripS (M : UnicodeModel) (s : String) : String := ⟨pstripL M s.data⟩

/-- `str.lower()` on a character list. -/
def lowerL (M : UnicodeModel) (l : List Char) : List Char := l.map M.lower

/-- `str.lower()` on a `String`. -/
def lowerS (M : UnicodeModel) (s : String) : String := ⟨lowerL M s.data⟩

/-- `str.upper()` on a `String`. -/
def upperS (M : UnicodeModel) (s : String) : String := ⟨s.data.map M.upper⟩

/-- `re.sub(r"\([^)]*\)", "", s)`: removes each leftmost group that opens
with `(` and runs to the next `)`; an opening parenthesis with no closing
one is kept literally.  The running `Option` argument buffers (reversed)
the characters of a potential group. -/
def removeParensAux : List Char → Option (List Char) → List Char
  | [], none => []
  | [], some buf => buf.reverse
  | c :: rest, none =>
    if c = '(' then removeParensAux rest (some [c]) else c :: removeParensAux rest none
  | c :: rest, some buf =>
    if c = ')' then removeParensAux rest none else removeParensAux rest (some (c :: buf))

def removeParens (l : List Char) : List Char := removeParensAux l none

/-- Run-collapsing substitution: each maximal run of characters failing
`keep` becomes a single copy of `sub`.  The Boolean state records whether
the previous character was part of such a run (whose `sub` was already
emitted). -/
def runSubAux (keep : Char → Bool) (sub : Char) : List Char → Bool → List Char
  | [], _ => []
  | c :: rest, inRun =>
    if keep c then c :: runSubAux keep sub rest false
    else if inRun then runSubAux keep sub rest true
    else sub :: runSubAux keep sub rest true

/-- `PUNCT_RE.sub(" ", s)`: each maximal run of characters outside
`[a-z0-9 ]` becomes a single space. -/
def punctToSpace (l : List Char) : List Char := runSubAux isKeep ' ' l false

/-- `SPACES_RE.sub(" ", s)`: each maximal run of whitespace becomes a
single space. -/
def collapseSpaces (M : UnicodeModel) (l : List Char) : List Char :=
  runSubAux (fun c => !M.isSpace c) ' ' l false

/-- The body of `normalize_name` on a character list: NFKD, strip, lower,
parenthetical removal, punctuation to spaces, whitespace collapse, strip. -/
def normalizeL (M : UnicodeModel) (l : List Char) : List Char :=
  pstripL M (collapseSpaces M (punctToSpace (removeParens
    (lowerL M (pstripL M (nfkdL M l))))))

/-- `normalize_name`: `None` and falsy (empty) input give `""`, any other
string goes through the normalization pipeline. -/
def normalize_name (M : UnicodeModel) : Option String → String
  | none => ""
  | some s => if s = "" then "" else ⟨normalizeL M s.data⟩

/-- Python `str.replace(old, new)` for one-character `old`/`new`. -/
def replaceChar (s : String) (old new : Char) : String :=
  ⟨s.data.map (fun c => if c = old then new else c)⟩

/-- `re.sub(r"'s\b", repl, s)`: an apostrophe followed by `s` at a word
boundary is replaced by `repl`. -/
def subAposAux (M : UnicodeModel) (repl : List Char) : Nat → List Char → List Char
  | 0, l => l
  | _ + 1, [] => []
  | fuel + 1, c :: rest =>
    if c = aposChar then
      match rest with
      | d :: rest2 =>
        if d = 's' ∧ !(M.isWord (rest2.headD ' ')) then
          repl ++ subAposAux M repl fuel rest2
        else c :: subAposAux M repl fuel rest
      | [] => [c]
    else c :: subAposAux M repl fuel rest

def subAposS (M : UnicodeModel) (repl : List Char) (l : List Char) : List Char :=
  subAposAux M repl l.length l

def subAposStr (M : UnicodeModel) (s : String) (repl : String) : String :=
  ⟨subAposS M repl.data s.data⟩

/-- `re.sub(r"[^\w\s]", " ", s)`: every character that is neither a word
character nor whitespace becomes a space. -/
def punctWS (M : UnicodeModel) (s : String) : String :=
  ⟨s.data.map (fun c => if M.isWord c || M.isSpace c then c else ' ')⟩

/-- First-occurrence deduplication (used to model Python `set`/`dict` key
collections where only membership and first appearance matter). -/
def firstDedupAux [DecidableEq α] : List α → List α → List α
  | [], _ => []
  | x :: rest, seen =>
    if x ∈ seen then firstDedupAux rest seen
    else x :: firstDedupAux rest (x :: seen)

def firstDedup [DecidableEq α] (l : List α) : List α := firstDedupAux l []

/-- The seven normalized forms out of which `expand_variants` builds its
set of variants, in source order. -/
def variantsList (M : UnicodeModel) (base : String) : List String :=
  [ normalize_name M (some base),
    normalize_name M (some (replaceChar base '-' ' ')),
    normalize_name M (some (replaceChar base '/' ' ')),
    normalize_name M (some (replaceChar base ',' ' ')),
    normalize_name M (some (subAposStr M base "s")),
    normalize_name M (some (subAposStr M base "")),
    normalize_name M (some (punctWS M base)) ]

/-- `expand_variants`: primary normalized form first, then the other
members of the variant set, with empty strings filtered out.  The variant
collection is a Python `set`, whose iteration order is arbitrary; it is
modelled here by first-occurrence order of the source-order list, which
fixes one admissible enumeration. -/
def expand_variants (M : UnicodeModel) : Option String → List String
  | none => []
  | some base =>
    if base = "" then []
    else
      let prim := normalize_name M (some base)
      let v := prim :: (firstDedup (variantsList M base)).filter (· ≠ prim)
      v.filter (· ≠ "")

/-! ### Rarity classifier (`load_allowed_species_codes` and helpers) -/

/-- ASCII decimal digit (the `\d` of `^\s*(\d)\b`, restricted to the
ASCII range the checklist uses). -/
def isDigitCh (c : Char) : Bool := 48 ≤ c.toNat ∧ c.toNat ≤ 57

/-- The regex `^\s*(\d)\b` applied to a rarity-code cell: optional leading
whitespace, one digit, then a word boundary; returns the digit's value. -/
def parseLeadingCodeAux (M : UnicodeModel) : List Char → Option Nat
  | [] => none
  | c :: rest =>
    if M.isSpace c then parseLeadingCodeAux M rest
    else if isDigitCh c then
      match rest with
      | [] => some (c.toNat - 48)
      | d :: _ => if M.isWord d then none else some (c.toNat - 48)
    else none

def parse_leading_code (M : UnicodeModel) (s : String) : Option Nat :=
  parseLeadingCodeAux M s.data

/-- Python `dict` assignment: overwrite in place if the key exists
(keeping its position), else append. -/
def dictInsert (k v : String) : List (String × String) → List (String × String)
  | [] => [(k, v)]
  | (k', v') :: rest => if k' = k then (k, v) :: rest else (k', v') :: dictInsert k v rest

/-- `name_to_code`: normalized taxonomy name → lower-cased species code;
rows with a falsy name or code are skipped, later rows overwrite earlier
ones. -/
def buildNameToCode (M : UnicodeModel) (nameCol spcCol : String)
    (rows : List (List (String × String))) : List (String × String) :=
  rows.foldl (fun d r =>
    let nm := normalize_name M (List.lookup nameCol r)
    let sc := lowerS M (pstripS M ((List.lookup spcCol r).getD ""))
    if nm ≠ "" ∧ sc ≠ "" then dictInsert nm sc d else d) []

/-- Name resolution of a checklist row: the first variant from
`expand_variants` that the taxonomy dictionary maps to a (truthy) code. -/
def resolveName (M : UnicodeModel) (d : List (String × String)) (nm : Option String) :
    Option String :=
  (expand_variants M nm).findSome? (fun v => List.lookup v d)

/-- The species codes accumulated into `per_code_map[c]` while scanning
the checklist rows (as a list; only membership is used downstream). -/
def tierCodes (M : UnicodeModel) (d : List (String × String)) (targets : List Nat)
    (codeCol nameCol : String) (rows : List (List (String × String))) (c : Nat) :
    List String :=
  if c ∈ targets then
    rows.filterMap (fun r =>
      match parse_leading_code M (pstripS M ((List.lookup codeCol r).getD "")) with
      | some v => if v = c then resolveName M d (List.lookup nameCol r) else none
      | none => none)
  else []

/-- The names collected into the unresolved-names diagnostic list. -/
def unresolvedNames (M : UnicodeModel) (d : List (String × String)) (targets : List Nat)
    (codeCol nameCol : String) (rows : List (List (String × String))) :
    List (Option String) :=
  rows.filterMap (fun r =>
    match parse_leading_code M (pstripS M ((List.lookup codeCol r).getD "")) with
    | some v =>
      if v ∈ targets ∧ resolveName M d (List.lookup nameCol r) = none then
        some (List.lookup nameCol r)
      else none
    | none => none)

/-- `ABA_CODE_KEYS` (a Python `set`; modelled in source order). -/
def ABA_CODE_KEYS : List String :=
  ["abachecklistcode", "abacode", "code", "abraritycode", "raritycode",
   "aba checklist code", "aba rarity code", "aba code"]

/-- `ABA_NAME_KEYS` (a Python `set`; modelled in source order). -/
def ABA_NAME_KEYS : List String :=
  ["primary_com_name", "common name", "english name", "name",
   "primary com name", "primary common name"]

/-- `detect_column`: the first wanted key that matches some header cell
after strip+lower; on duplicate normalized headers the last one wins, as
in the Python dict comprehension. -/
def detect_column (M : UnicodeModel) (header : List String) (want : List String) :
    Option String :=
  want.findSome? (fun k => header.reverse.find? (fun h => lowerS M (pstripS M h) == k))

def TAX_NAME_CANDS : List String :=
  ["PRIMARY_COM_NAME", "PRIMARY COM NAME", "ENGLISH_NAME", "English Name", "Common Name"]

/-- Case-insensitive header lookup of the taxonomy fallback (`upper_map`);
the last header with the given upper-cased spelling wins. -/
def findByUpper (M : UnicodeModel) (hdr : List String) (k : String) : Option String :=
  hdr.reverse.find? (fun c => upperS M c == k)

/-- Detection of the taxonomy name and species-code columns, with the
case-insensitive fallback; `none` is the fatal undetectable-columns case. -/
def detectTaxCols (M : UnicodeModel) (hdr : List String) : Option (String × String) :=
  match TAX_NAME_CANDS.find? (fun c => hdr.contains c), hdr.contains "SPECIES_CODE" with
  | some n, true => some (n, "SPECIES_CODE")
  | _, _ =>
    let n2 := (findByUpper M hdr "PRIMARY_COM_NAME").orElse
      (fun _ => findByUpper M hdr "ENGLISH_NAME")
    let s2 := (findByUpper M hdr "SPECIES_CODE").getD "SPECIES_CODE"
    match n2 with
    | some n => if n = "" ∨ s2 = "" then none else some (n, s2)
    | none => none

/-- Python `str.split(sep)` for a one-character separator (keeps empty
segments). -/
def splitOnCharAux (sep : Char) : List Char → List Char → List String
  | [], acc => [⟨acc.reverse⟩]
  | c :: rest, acc =>
    if c = sep then ⟨acc.reverse⟩ :: splitOnCharAux sep rest []
    else splitOnCharAux sep rest (c :: acc)

def splitOnChar (sep : Char) (s : String) : List String := splitOnCharAux sep s.data []

/-- `strip('"')`: drop double quotes from both ends. -/
def stripQuotes (l : List Char) : List Char :=
  ((l.dropWhile (· = '"')).reverse.dropWhile (· = '"')).reverse

/-- Substring test (`"code" in t`). -/
def containsSub (needle hay : List Char) : Bool :=
  hay.tails.any (fun t => needle.isPrefixOf t)

/-- `looks_like_header`: at least three cells, one mentioning "code" and
one mentioning "name" after strip/unquote/lower. -/
def looksLikeHeader (M : UnicodeModel) (line : String) (sep : Char) : Bool :=
  let toks := (splitOnChar sep line).map (fun t => lowerS M ⟨stripQuotes (pstripL M t.data)⟩)
  decide (3 ≤ toks.length) && toks.any (fun t => containsSub "code".data t.data)
    && toks.any (fun t => containsSub "name".data t.data)

/-- Header-row search over the first 50 checklist lines: first with commas,
then with tabs; `none` is the fatal no-header case. -/
def findHeader (M : UnicodeModel) (lines : List String) : Option (Nat × Char) :=
  match (lines.take 50).findIdx?
      (fun l => decide (2 ≤ l.data.count ',') && looksLikeHeader M l ',') with
  | some i => some (i, ',')
  | none =>
    match (lines.take 50).findIdx?
        (fun l => decide (2 ≤ l.data.count '\t') && looksLikeHeader M l '\t') with
    | some i => some (i, '\t')
    | none => none

/-- Field names of the detected header line (model of the `csv` module's
parse of one line: split on the delimiter, strip quotes). -/
def csvFields (delim : Char) (line : String) : List String :=
  (splitOnChar delim line).map (fun t => ⟨stripQuotes t.data⟩)

/-! ### Observation records and the sharded fetch -/

/-- The observation record shape kept by `pick_recent_fields`; raw eBird
records are modelled with the same shape (absent JSON fields are `none`). -/
structure Rec where
  comName : Option String := none
  sciName : Option String := none
  lat : Option Rat := none
  lng : Option Rat := none
  locName : Option String := none
  obsDt : Option String := none
  subId : Option String := none
  howMany : Option Nat := none
  countryCode : Option String := none
  subnational1Code : Option String := none
  speciesCode : Option String := none
deriving DecidableEq

/-- `pick_recent_fields`: identity on all fields except the species code,
which becomes `(rec.get("speciesCode") or "").strip().lower()`. -/
def pick_recent_fields (M : UnicodeModel) (r : Rec) : Rec :=
  { r with speciesCode := some (lowerS M (pstripS M (r.speciesCode.getD ""))) }

/-- The fetch-stage dedup key: `(rec.get("subId"), (rec.get("speciesCode") or "").lower())`. -/
def dedupKey (M : UnicodeModel) (r : Rec) : Option String × String :=
  (r.subId, lowerS M (r.speciesCode.getD ""))

/-- Outcome of one shard request. -/
inductive ShardResp where
  | ok (data : List Rec)
  | httpError (status : Nat)
deriving DecidableEq

/-- The inner per-shard loop: append records whose dedup key is unseen,
threading the seen-set. -/
def dedupStep (M : UnicodeModel) :
    List Rec → List (Option String × String) → List Rec × List (Option String × String)
  | [], seen => ([], seen)
  | r :: rest, seen =>
    if dedupKey M r ∈ seen then dedupStep M rest seen
    else
      let p := dedupStep M rest (dedupKey M r :: seen)
      (r :: p.1, p.2)

/-- The shard loop of `fetch_recent_notables_sharded`: HTTP failures are
logged and skipped, successful shards are deduplicated into the running
collection. -/
def fetchAux (M : UnicodeModel) : List ShardResp → List (Option String × String) → List Rec
  | [], _ => []
  | .httpError _ :: shards, seen => fetchAux M shards seen
  | .ok data :: shards, seen =>
    let p := dedupStep M data seen
    p.1 ++ fetchAux M shards p.2

def fetch_from_responses (M : UnicodeModel) (resps : List ShardResp) : List Rec :=
  fetchAux M resps []

/-- `fetch_recent_notables_sharded` issues exactly one request per region;
the environment is modelled as, per region, the response each successive
attempt would receive, of which the code uses only attempt `0`. -/
def fetch_recent_notables_sharded (M : UnicodeModel) (regions : List (Nat → ShardResp)) :
    List Rec :=
  fetch_from_responses M (regions.map (fun sh => sh 0))

/-- Modelled from the spec: the claimed fetch behavior in which an HTTP 429
response triggers a short delay and a single retry of that shard's request
(attempt `1`), all other behavior unchanged.  There is no such handling in
the source; this definition exists to be compared against it. -/
def fetch_claimed_retry429 (M : UnicodeModel) (regions : List (Nat → ShardResp)) :
    List Rec :=
  fetch_from_responses M (regions.map (fun sh =>
    match sh 0 with
    | .httpError 429 => sh 1
    | r => r))

/-! ### Record capping (`cap_records`) -/

/-- `obs_dt_key`: the raw `obsDt` string, `""` when missing. -/
def dtKey (r : Rec) : String := r.obsDt.getD ""

/-- Lexicographic code-point comparison of character lists (the order
Python uses on `str`); agrees with `List.lt` on `Char`. -/
def ltCharList : List Char → List Char → Bool
  | [], [] => false
  | [], _ :: _ => true
  | _ :: _, [] => false
  | a :: as, b :: bs =>
    if a < b then true
    else if b < a then false
    else ltCharList as bs

/-- Python string `<`. -/
def ltStr (a b : String) : Bool := ltCharList a.data b.data

/-- One step of a stable descending insertion sort on `dtKey`; models
Python `sorted(..., key=obs_dt_key, reverse=True)` (stable, ties keep
input order). -/
def insertDesc (r : Rec) : List Rec → List Rec
  | [] => [r]
  | x :: xs => if ltStr (dtKey r) (dtKey x) then x :: insertDesc r xs else r :: x :: xs

def sortDesc (l : List Rec) : List Rec := l.foldr insertDesc []

/-- Truthiness of `rec.get("speciesCode")`. -/
def hasSpecies (r : Rec) : Bool := r.speciesCode.getD "" ≠ ""

def speciesOf (r : Rec) : Option String :=
  match r.speciesCode with
  | some s => if s = "" then none else some s
  | none => none

/-- The keys of `by_species` in insertion order (Python dicts preserve
first-appearance order of keys). -/
def speciesOrder (records : List Rec) : List String :=
  firstDedup (records.filterMap speciesOf)

def bySpecies (s : String) (r : Rec) : Bool := r.speciesCode == some s

/-- Phase 1 of `cap_records`: group by species code (dropping records with
a falsy code), sort each group newest-first, keep the first `P` of each
(all of them when `P ≤ 0`). -/
def cap_phase1 (records : List Rec) (P : Int) : List Rec :=
  (speciesOrder records).flatMap (fun s =>
    let grp := sortDesc (records.filter (bySpecies s))
    if P ≤ 0 then grp else grp.take P.toNat)

/-- `cap_records`: phase 1 then, when a positive global cap `G` is
exceeded, a global re-sort and truncation to `G`. -/
def cap_records (records : List Rec) (P G : Int) : List Rec :=
  let trimmed := cap_phase1 records P
  if 0 < G ∧ G < (trimmed.length : Int) then (sortDesc trimmed).take G.toNat else trimmed

/-! ### Geographic aggregation (`build_map_html`, grouping part) -/

/-- `round(x, 6)` modelled over the rationals: `⌊q·10⁶ + 1/2⌋ / 10⁶`,
computed on the numerator/denominator (the denominator is positive, so
`Int.ediv` is floor division). -/
def round6 (q : Rat) : Rat :=
  mkRat ((2 * q.num * 1000000 + (q.den : Int)).ediv (2 * (q.den : Int))) 1000000

abbrev GeoKey := Rat × Rat × String

/-- The `(round(lat,6), round(lng,6), speciesCode.lower())` grouping key;
`none` when the record is skipped (missing coordinate or falsy species). -/
def recKey (M : UnicodeModel) (r : Rec) : Option GeoKey :=
  match r.lat, r.lng with
  | some la, some ln =>
    let sc := lowerS M (r.speciesCode.getD "")
    if sc = "" then none else some (round6 la, round6 ln, sc)
  | _, _ => none

/-- The checklist dedup inside a marker popup: walk the newest-first list,
keeping the first record of each truthy `subId`. -/
def dedupeBySub : List Rec → List String → List Rec
  | [], _ => []
  | r :: rest, seen =>
    match r.subId with
    | none => dedupeBySub rest seen
    | some cid =>
      if cid = "" ∨ cid ∈ seen then dedupeBySub rest seen
      else r :: dedupeBySub rest (cid :: seen)

/-- An aggregated map marker: position/species key, display metadata from
the group's first record, rarity tier, and the popup's checklist records. -/
structure Marker where
  lat : Rat
  lng : Rat
  speciesCode : String
  comName : String
  locName : String
  tier : Nat
  items : List Rec
deriving DecidableEq

/-- The marker emitted for one grouping key, if any: metadata from the
first record of the group, tier 4 before tier 5 by membership, groups
classified in neither set dropped. -/
def markerOfKey (M : UnicodeModel) (points : List Rec) (code4 code5 : List String)
    (k : GeoKey) : Option Marker :=
  let grp := points.filter (fun r => decide (recKey M r = some k))
  match grp with
  | [] => none
  | r0 :: _ =>
    let code : Option Nat :=
      if k.2.2 ∈ code4 then some 4 else if k.2.2 ∈ code5 then some 5 else none
    match code with
    | some t =>
      some { lat := k.1, lng := k.2.1, speciesCode := k.2.2,
             comName := r0.comName.getD "(unknown)", locName := r0.locName.getD "",
             tier := t, items := dedupeBySub (sortDesc grp) [] }
    | none => none

/-- The aggregation/marker stage of `build_map_html`: one candidate marker
per grouping key in first-appearance order. -/
def build_map_markers (M : UnicodeModel) (points : List Rec) (code4 code5 : List String) :
    List Marker :=
  (firstDedup (points.filterMap (recKey M))).filterMap (markerOfKey M points code4 code5)

/-! ### The `main` pipeline: write events and exit statuses -/

/-- Ascending insertion sort on naturals (`sorted(target_codes)`). -/
def insertNat (n : Nat) : List Nat → List Nat
  | [] => [n]
  | x :: xs => if n ≤ x then n :: x :: xs else x :: insertNat n xs

def sortNats (l : List Nat) : List Nat := l.foldr insertNat []

/-- One anchor of the post-generation regex `(^|\n)\s*\.\{`: from this
position, whitespace then the two characters dot, open-brace. -/
def isInjTail (M : UnicodeModel) (t : List Char) : Bool :=
  match t.dropWhile M.isSpace with
  | c1 :: c2 :: _ => c1 = '.' ∧ c2 = obraceChar
  | _ => false

/-- `re.search(r"(^|\n)\s*\.\{", txt)`: the pattern at the start of the
text or after any newline. -/
def hasInjection (M : UnicodeModel) (s : String) : Bool :=
  isInjTail M s.data || s.data.tails.any (fun t =>
    match t with
    | c :: rest => c = '\n' && isInjTail M rest
    | [] => false)

/-- The environment `main` runs against: presence of the credential and
the two input files, the parsed contents of the two tabular inputs, the
raw checklist lines (for header detection), the per-region responses the
remote source would give to successive request attempts, the contents of
any pre-existing (stale) tier files from an earlier run, and the text the
external renderer would produce for `index.html`. -/
structure MainEnv where
  apiKeyPresent : Bool
  abaExists : Bool
  taxExists : Bool
  taxHeader : List String
  taxRows : List (List (String × String))
  abaLines : List String
  abaRows : List (List (String × String))
  regions : List (Nat → ShardResp)
  staleCode4 : List String
  staleCode5 : List String
  renderedHtml : String

/-- The configuration `main` reads from arguments and environment
variables; `codesValid` models whether `--codes` parses as integers. -/
structure MainCfg where
  codesValid : Bool
  targetCodes : List Nat
  mode : String
  nationalMax : Int
  perSpeciesMax : Int

/-- The files written by `load_allowed_species_codes`, in write order:
one JSON per sorted requested code, the merged set, the backward
compatibility `aba5.json` rewrite, and the unresolved-names report when
non-empty. -/
def w1Writes (M : UnicodeModel) (cfg : MainCfg) (d : List (String × String))
    (cc nc : String) (rows : List (List (String × String))) : List String :=
  (sortNats (firstDedup cfg.targetCodes)).map (fun c => "aba" ++ toString c ++ ".json")
    ++ ["aba_allowed.json"]
    ++ (if 5 ∈ cfg.targetCodes then ["aba5.json"] else [])
    ++ (if unresolvedNames M d cfg.targetCodes cc nc rows ≠ [] then
        ["unresolved_names.csv"] else [])

/-- The whole `main` run: the list of files written to the output
directory, in write order, and the exit status (`none` = success).  The
structure mirrors the source: classifier JSONs are written inside
`load_allowed_species_codes`; `index.html` is written by `build_map_html`
and `summary.json` right after; the injection scan runs last, on the
already-written page. -/
def runMain (M : UnicodeModel) (env : MainEnv) (cfg : MainCfg) : List String × Option Nat :=
  if !cfg.codesValid then ([], some 2)
  else if !env.abaExists || !env.taxExists then ([], some 3)
  else
    match detectTaxCols M env.taxHeader with
    | none => ([], some 3)
    | some nsc =>
      match findHeader M env.abaLines with
      | none => ([], some 3)
      | some hd =>
        let fields := csvFields hd.2 ((env.abaLines.drop hd.1).headD "")
        match (detect_column M fields ABA_CODE_KEYS).orElse (fun _ => fields.head?),
            detect_column M fields ABA_NAME_KEYS with
        | some cc, some nc =>
          if cc = "" ∨ nc = "" then ([], some 3)
          else
            let d := buildNameToCode M nsc.1 nsc.2 env.taxRows
            let ts := cfg.targetCodes
            let tier := tierCodes M d ts cc nc env.abaRows
            let sortedTs := sortNats (firstDedup ts)
            let w1 := w1Writes M cfg d cc nc env.abaRows
            let allowed := (sortedTs.flatMap tier).map (lowerS M)
            let code4 := if 4 ∈ ts then tier 4 else env.staleCode4.map (lowerS M)
            let code5 := if 5 ∈ ts then tier 5 else env.staleCode5.map (lowerS M)
            if code4.isEmpty ∧ 4 ∈ ts then (w1, some 6)
            else if code5.isEmpty ∧ 5 ∈ ts then (w1, some 6)
            else if !env.apiKeyPresent then (w1, some 2)
            else
              let raw := fetch_recent_notables_sharded M env.regions
              let picked0 := (raw.map (pick_recent_fields M)).filter
                (fun r => cfg.mode = "union" ∨ lowerS M (r.speciesCode.getD "") ∈ allowed)
              let picked := picked0.filter (fun r =>
                lowerS M (r.speciesCode.getD "") ∈ code4 ∨
                lowerS M (r.speciesCode.getD "") ∈ code5)
              let points := cap_records picked cfg.perSpeciesMax cfg.nationalMax
              if 20000 < points.length then (w1, some 5)
              else
                let w3 := w1 ++ ["index.html", "summary.json"]
                if hasInjection M env.renderedHtml then (w3, some 4) else (w3, none)
        | _, _ => ([], some 3)

/-- The markers of a `main` run that reaches map generation: the same
classification, code-set selection, fetch, filtering and capping as
`runMain`, with the resulting points and code sets handed to the
aggregation stage of `build_map_html`; `none` when the run aborts before
the map is generated. -/
def runMainMarkers (M : UnicodeModel) (env : MainEnv) (cfg : MainCfg) :
    Option (List Marker) :=
  if !cfg.codesValid then none
  else if !env.abaExists || !env.taxExists then none
  else
    match detectTaxCols M env.taxHeader with
    | none => none
    | some nsc =>
      match findHeader M env.abaLines with
      | none => none
      | some hd =>
        let fields := csvFields hd.2 ((env.abaLines.drop hd.1).headD "")
        match (detect_column M fields ABA_CODE_KEYS).orElse (fun _ => fields.head?),
            detect_column M fields ABA_NAME_KEYS with
        | some cc, some nc =>
          if cc = "" ∨ nc = "" then none
          else
            let d := buildNameToCode M nsc.1 nsc.2 env.taxRows
            let ts := cfg.targetCodes
            let tier := tierCodes M d ts cc nc env.abaRows
            let sortedTs := sortNats (firstDedup ts)
            let allowed := (sortedTs.flatMap tier).map (lowerS M)
            let code4 := if 4 ∈ ts then tier 4 else env.staleCode4.map (lowerS M)
            let code5 := if 5 ∈ ts then tier 5 else env.staleCode5.map (lowerS M)
            if code4.isEmpty ∧ 4 ∈ ts then none
            else if code5.isEmpty ∧ 5 ∈ ts then none
            else if !env.apiKeyPresent then none
            else
              let raw := fetch_recent_notables_sharded M env.regions
              let picked0 := (raw.map (pick_recent_fields M)).filter
                (fun r => cfg.mode = "union" ∨ lowerS M (r.speciesCode.getD "") ∈ allowed)
              let picked := picked0.filter (fun r =>
                lowerS M (r.speciesCode.getD "") ∈ code4 ∨
                lowerS M (r.speciesCode.getD "") ∈ code5)
              let points := cap_records picked cfg.perSpeciesMax cfg.nationalMax
              if 20000 < points.length then none
              else some (build_map_markers M points code4 code5)
        | _, _ => none

/-! ### Spec-side comparison definitions and concrete fixtures -/

/-- Modelled from the spec: an "observation timestamp" in the remote
source's `YYYY-MM-DD` or `YYYY-MM-DD HH:MM` shape, parsed to a value
monotone in time; anything else is unparsable (`none`). -/
def parse_obs_dt (s : String) : Option Nat :=
  match s.data with
  | [y1, y2, y3, y4, '-', m1, m2, '-', d1, d2] =>
    if [y1, y2, y3, y4, m1, m2, d1, d2].all isDigitCh then
      some (((((y1.toNat - 48) * 10 + (y2.toNat - 48)) * 10 + (y3.toNat - 48)) * 10 +
        (y4.toNat - 48)) * 100000 + ((m1.toNat - 48) * 10 + (m2.toNat - 48)) * 3200 +
        ((d1.toNat - 48) * 10 + (d2.toNat - 48)) * 100)
    else none
  | [y1, y2, y3, y4, '-', m1, m2, '-', d1, d2, ' ', h1, h2, ':', n1, n2] =>
    if [y1, y2, y3, y4, m1, m2, d1, d2, h1, h2, n1, n2].all isDigitCh then
      some (((((y1.toNat - 48) * 10 + (y2.toNat - 48)) * 10 + (y3.toNat - 48)) * 10 +
        (y4.toNat - 48)) * 100000 + ((m1.toNat - 48) * 10 + (m2.toNat - 48)) * 3200 +
        ((d1.toNat - 48) * 10 + (d2.toNat - 48)) * 100 +
        (h1.toNat - 48) * 10 + (h2.toNat - 48) + ((n1.toNat - 48) * 10 + (n2.toNat - 48)) / 60)
    else none
  | _ => none

/-- Modelled from the spec: `a` is strictly fresher than `b` when both
timestamps parse and `a`'s is larger; an unparsable or missing timestamp
is never fresher than anything, so it sorts last under the descending
order of the claim. -/
def fresherThan (a b : Rec) : Bool :=
  match parse_obs_dt (dtKey a), parse_obs_dt (dtKey b) with
  | some x, some y => y < x
  | some _, none => true
  | none, _ => false

/-- Modelled from the spec: stable descending insertion by `fresherThan`
(the claim's "sort by observation timestamp descending, unparsable or
missing timestamps last"). -/
def insertDescClaim (r : Rec) : List Rec → List Rec
  | [] => [r]
  | x :: xs => if fresherThan x r then x :: insertDescClaim r xs else r :: x :: xs

def sortDescClaim (l : List Rec) : List Rec := l.foldr insertDescClaim []

/-- Modelled from the spec: `cap_records` as claim C2 describes it — the
same two-phase structure, but with groups ordered by parsed observation
timestamp, unparsable and missing timestamps last. -/
def cap_records_claim (records : List Rec) (P G : Int) : List Rec :=
  let trimmed := (speciesOrder records).flatMap (fun s =>
    let grp := sortDescClaim (records.filter (bySpecies s))
    if P ≤ 0 then grp else grp.take P.toNat)
  if 0 < G ∧ G < (trimmed.length : Int) then (sortDescClaim trimmed).take G.toNat else trimmed

/-- "Steller's Sea-Eagle" (apostrophe written as an escape). -/
def stellerName : String := "Steller" ++ "\x27" ++ "s Sea-Eagle"

/-- Capping fixtures: species `a` at two dates, species `b` in between,
and an `a` record whose timestamp is not parsable as a date. -/
def capA10 : Rec := { speciesCode := some "a", obsDt := some "2024-01-10", subId := some "s1" }

def capA20 : Rec := { speciesCode := some "a", obsDt := some "2024-01-20", subId := some "s2" }

def capB15 : Rec := { speciesCode := some "b", obsDt := some "2024-01-15", subId := some "s3" }

def capZ : Rec := { speciesCode := some "a", obsDt := some "zzz", subId := some "s4" }

/-- Fetch fixture: the spec's submission `S100` of species `snogoo`. -/
def fetchRecS100 : Rec := { subId := some "S100", speciesCode := some "snogoo" }

/-- A region whose first request attempt is rate-limited and whose retry
would succeed. -/
def region429 : Nat → ShardResp :=
  fun n => if n = 0 then .httpError 429 else .ok [fetchRecS100]

/-- Marker fixtures: two same-place same-species records, newer one
second in input order. -/
def mkRec1 : Rec :=
  { lat := some 41, lng := some 73, speciesCode := some "aaa",
    comName := some "First", locName := some "LocA", obsDt := some "2024-01-10",
    subId := some "s1" }

def mkRec2 : Rec :=
  { lat := some 41, lng := some 73, speciesCode := some "aaa",
    comName := some "Second", locName := some "LocB", obsDt := some "2024-01-20",
    subId := some "s2" }

/-- An environment in which every stage of `main` succeeds except the
final injection scan: the rendered page starts with `.{`. -/
def envInj : MainEnv :=
  { apiKeyPresent := true, abaExists := true, taxExists := true,
    taxHeader := ["PRIMARY_COM_NAME", "SPECIES_CODE"],
    taxRows := [[("PRIMARY_COM_NAME", stellerName), ("SPECIES_CODE", "stseag1")]],
    abaLines := ["Common Name,Code,Notes"],
    abaRows := [[("Common Name", stellerName), ("Code", "5")]],
    regions := [], staleCode4 := [], staleCode5 := [],
    renderedHtml := ".\x7bfoo\x7d" }

def cfgInj : MainCfg :=
  { codesValid := true, targetCodes := [5], mode := "aba4_5_only",
    nationalMax := 0, perSpeciesMax := 0 }

/-- A fetched record of the species that a stale tier-4 file lists. -/
def stseagRec : Rec :=
  { lat := some 41, lng := some 73, speciesCode := some "stseag1",
    comName := some "Steller", locName := some "LocS", obsDt := some "2024-01-10",
    subId := some "s7" }

/-- An environment like `envInj` but with a clean rendered page, one
shard returning `stseagRec`, and a stale `aba4.json` left by an earlier
run that lists that species. -/
def envStale : MainEnv :=
  { apiKeyPresent := true, abaExists := true, taxExists := true,
    taxHeader := ["PRIMARY_COM_NAME", "SPECIES_CODE"],
    taxRows := [[("PRIMARY_COM_NAME", stellerName), ("SPECIES_CODE", "stseag1")]],
    abaLines := ["Common Name,Code,Notes"],
    abaRows := [[("Common Name", stellerName), ("Code", "5")]],
    regions := [fun _ => ShardResp.ok [stseagRec]],
    staleCode4 := ["stseag1"], staleCode5 := [],
    renderedHtml := "ok" }

/-- A run requesting only tier 5. -/
def cfgStale : MainCfg :=
  { codesValid := true, targetCodes := [5], mode := "aba4_5_only",
    nationalMax := 0, perSpeciesMax := 0 }

/-- The data of a successful shard response. -/
def okData : ShardResp → Option (List Rec)
  | .ok d => some d
  | .httpError _ => none

/-- All records of the successful shards, in shard order then
within-shard order — the stream the fetch dedup walks. -/
def flattenOK (resps : List ShardResp) : List Rec :=
  (resps.filterMap okData).flatten

/-- No two adjacent spaces (the shape left by the whitespace collapse). -/
def NoSpacePair (a b : Char) : Prop := ¬(a = ' ' ∧ b = ' ')

/-- The canonical form produced by the name normalizer: only characters
of `[a-z0-9 ]`, no two adjacent spaces, and no leading or trailing
space. -/
def IsCanon (l : List Char) : Prop :=
  (∀ c ∈ l, isKeep c = true) ∧ l.Chain' NoSpacePair ∧
  l.head? ≠ some ' ' ∧ l.getLast? ≠ some ' '

/-- The facts about the real Unicode tables the idempotence argument
needs: NFKD and lower-casing fix every character of `[a-z0-9 ]`, and
among those characters exactly the space is whitespace. -/
def KeepFixed (M : UnicodeModel) : Prop :=
  ∀ c : Char, isKeep c = true →
    M.nfkd c = [c] ∧ M.lower c = c ∧ (M.isSpace c = true ↔ c = ' ')

/-! ### General helper lemmas -/

theorem mem_firstDedupAux [DecidableEq α] (l : List α) :
    ∀ (seen : List α) (x : α), x ∈ firstDedupAux l seen ↔ x ∈ l ∧ x ∉ seen := by
  induction l with
  | nil => intro seen x; simp [firstDedupAux]
  | cons y l ih =>
    intro seen x
    by_cases hy : y ∈ seen
    · simp only [firstDedupAux, if_pos hy, ih, List.mem_cons]
      constructor
      · rintro ⟨h1, h2⟩; exact ⟨Or.inr h1, h2⟩
      · rintro ⟨h1 | h1, h2⟩
        · subst h1; exact absurd hy h2
        · exact ⟨h1, h2⟩
    · simp only [firstDedupAux, if_neg hy, List.mem_cons, ih]
      constructor
      · rintro (rfl | ⟨h1, h2⟩)
        · exact ⟨Or.inl rfl, hy⟩
        · exact ⟨Or.inr h1, fun hs => h2 (Or.inr hs)⟩
      · rintro ⟨h1 | h1, h2⟩
        · subst h1; exact Or.inl rfl
        · by_cases hxy : x = y
          · exact Or.inl hxy
          · exact Or.inr ⟨h1, by simp [hxy, h2]⟩

theorem nodup_firstDedupAux [DecidableEq α] (l : List α) :
    ∀ seen, (firstDedupAux l seen).Nodup := by
  induction l with
  | nil => intro seen; simp [firstDedupAux]
  | cons y l ih =>
    intro seen
    by_cases hy : y ∈ seen
    · simpa [firstDedupAux, hy] using ih seen
    · simp only [firstDedupAux, if_neg hy, List.nodup_cons]
      refine ⟨fun hmem => ?_, ih _⟩
      rw [mem_firstDedupAux] at hmem
      exact hmem.2 (List.mem_cons_self y seen)

theorem mem_firstDedup [DecidableEq α] (l : List α) (x : α) :
    x ∈ firstDedup l ↔ x ∈ l := by
  simp [firstDedup, mem_firstDedupAux]

theorem nodup_firstDedup [DecidableEq α] (l : List α) : (firstDedup l).Nodup :=
  nodup_firstDedupAux l []

/-! ### Claim C8 -/

/-- C8: with checklist row ("Steller's Sea-Eagle", "5"), tier 5 requested,
and a taxonomy row mapping that name to "stseag1", the classifier parses
the leading digit 5, resolves the name through `expand_variants` (first
matching variant), and the tier-5 species-code set contains "stseag1". -/
theorem C8_steller_scenario :
    parse_leading_code asciiModel "5" = some 5 ∧
    resolveName asciiModel
      (buildNameToCode asciiModel "PRIMARY_COM_NAME" "SPECIES_CODE"
        [[("PRIMARY_COM_NAME", stellerName), ("SPECIES_CODE", "stseag1")]])
      (some stellerName) = some "stseag1" ∧
    "stseag1" ∈ tierCodes asciiModel
      (buildNameToCode asciiModel "PRIMARY_COM_NAME" "SPECIES_CODE"
        [[("PRIMARY_COM_NAME", stellerName), ("SPECIES_CODE", "stseag1")]])
      [5] "Code" "Common Name" [[("Common Name", stellerName), ("Code", "5")]] 5 := by
  decide

/-! ### Claim C6 -/

/-- C6 counterexample: a shard whose first request is answered 429 and
whose retry would succeed.  The source skips the shard like any other
HTTP failure (no retry, record lost); under the claimed single-retry
behavior the record would be fetched. -/
theorem C6_counterexample :
    fetch_recent_notables_sharded asciiModel [region429] = [] ∧
    fetch_claimed_retry429 asciiModel [region429] = [fetchRecS100] ∧
    fetch_recent_notables_sharded asciiModel [region429] ≠
      fetch_claimed_retry429 asciiModel [region429] := by
  decide

theorem fetchAux_status_irrel (M : UnicodeModel) (f : Nat → Nat) (resps : List ShardResp) :
    ∀ seen, fetchAux M (resps.map (fun r => match r with
      | ShardResp.ok d => ShardResp.ok d
      | ShardResp.httpError s => ShardResp.httpError (f s))) seen = fetchAux M resps seen := by
  induction resps with
  | nil => intro seen; rfl
  | cons r resps ih =>
    intro seen
    cases r with
    | ok data => simp [fetchAux, ih]
    | httpError s => simp [fetchAux, ih]

/-- C6 (amended): the fetcher makes exactly one request per shard (only
attempt 0 of the environment is ever consulted), and a 429 response is
handled exactly like an HTTP failure with any other status — logged and
skipped, with no retry: the fetched collection is invariant under
arbitrary rewriting of error status codes. -/
theorem C6_rate_limit_skipped_like_other_errors (M : UnicodeModel)
    (regions : List (Nat → ShardResp)) (f : Nat → Nat) :
    fetch_recent_notables_sharded M regions =
      fetch_recent_notables_sharded M (regions.map (fun sh _ => sh 0)) ∧
    fetch_recent_notables_sharded M (regions.map (fun sh n =>
        match sh n with
        | ShardResp.ok d => ShardResp.ok d
        | ShardResp.httpError s => ShardResp.httpError (f s))) =
      fetch_recent_notables_sharded M regions := by
  constructor
  · have h0 : ((fun sh : Nat → ShardResp => sh 0) ∘ fun sh _ => sh 0) =
        (fun sh : Nat → ShardResp => sh 0) := rfl
    simp only [fetch_recent_notables_sharded, List.map_map, h0]
  · have h1 : (regions.map (fun sh n =>
        match sh n with
        | ShardResp.ok d => ShardResp.ok d
        | ShardResp.httpError s => ShardResp.httpError (f s))).map (fun sh => sh 0) =
        (regions.map (fun sh => sh 0)).map (fun r => match r with
          | ShardResp.ok d => ShardResp.ok d
          | ShardResp.httpError s => ShardResp.httpError (f s)) := by
      rw [List.map_map, List.map_map]
      rfl
    simp only [fetch_recent_notables_sharded, fetch_from_responses]
    rw [h1, fetchAux_status_irrel]

/-! ### Claim C7 -/

/-- C7 counterexample: "()" is a non-empty name, but its normalized form
is empty, so `expand_variants` filters everything out and returns the
empty list — which has no first element, contradicting
`expandVariants(name)[0] == normalize(name)` for every non-empty name. -/
theorem C7_counterexample :
    "()" ≠ "" ∧ expand_variants asciiModel (some "()") = [] ∧
    (expand_variants asciiModel (some "()")).head? ≠
      some (normalize_name asciiModel (some "()")) := by
  decide

/-- C7 (amended): empty strings never appear among the variants and the
result has no duplicates; when the normalized form of the name is
non-empty it is the first element.  When the normalized form is empty it
is simply absent: the result can be empty (as for "()", the
counterexample) but can also consist of surviving secondary variants, as
for "(a)", whose punctuation-stripped variant normalizes to "a".  The
relative order of the non-primary variants is the iteration order of a
Python set, hence unspecified. -/
theorem C7_variants_amended (M : UnicodeModel) (name : String) :
    (∀ s ∈ expand_variants M (some name), s ≠ "") ∧
    (expand_variants M (some name)).Nodup ∧
    (normalize_name M (some name) ≠ "" →
      (expand_variants M (some name)).head? = some (normalize_name M (some name))) ∧
    expand_variants asciiModel (some "(a)") = ["a"] := by
  by_cases hname : name = ""
  · subst hname
    refine ⟨?_, ?_, ?_, by decide⟩
    · intro s hs
      simp [expand_variants] at hs
    · simp [expand_variants]
    · intro h
      exact absurd rfl h
  · have hv : expand_variants M (some name) =
        List.filter (fun x => decide (x ≠ ""))
          (normalize_name M (some name) ::
            List.filter (fun x => decide (x ≠ normalize_name M (some name)))
              (firstDedup (variantsList M name))) := by
      simp [expand_variants, hname]
    refine ⟨?_, ?_, ?_, by decide⟩
    · intro s hs
      rw [hv] at hs
      simp only [List.mem_filter, decide_eq_true_eq] at hs
      exact hs.2
    · rw [hv]
      refine List.Nodup.filter _
        (List.Nodup.cons ?_ (List.Nodup.filter _ (nodup_firstDedup _)))
      intro hmem
      simp only [List.mem_filter, decide_eq_true_eq] at hmem
      exact hmem.2 rfl
    · intro h
      rw [hv, List.filter_cons]
      simp [h]

theorem C7_variants_amended_witness :
    normalize_name asciiModel (some "Snow Goose") ≠ "" ∧
    (expand_variants asciiModel (some "Snow Goose")).head? =
      some (normalize_name asciiModel (some "Snow Goose")) :=
  ⟨by decide, (C7_variants_amended asciiModel "Snow Goose").2.2.1 (by decide)⟩

/-! ### Claim C2, counterexample part -/

/-- C2 counterexample: species `a` has a record with timestamp
"2024-01-10" (parsable) and one with "zzz" (unparsable).  With per-species
cap 1, the source keeps the "zzz" record — the raw strings are compared
lexicographically, so "zzz" sorts first, not last — while the claim's
ordering (unparsable last) keeps the dated record. -/
theorem C2_counterexample :
    parse_obs_dt (dtKey capZ) = none ∧ (parse_obs_dt (dtKey capA10)).isSome = true ∧
    cap_records [capA10, capZ] 1 0 = [capZ] ∧
    cap_records_claim [capA10, capZ] 1 0 = [capA10] ∧
    cap_records [capA10, capZ] 1 0 ≠ cap_records_claim [capA10, capZ] 1 0 := by
  decide

/-! ### Claim C1 -/

theorem dedupStep_append (M : UnicodeModel) (a : List Rec) :
    ∀ (b : List Rec) (seen : List (Option String × String)),
      dedupStep M (a ++ b) seen =
        ((dedupStep M a seen).1 ++ (dedupStep M b (dedupStep M a seen).2).1,
         (dedupStep M b (dedupStep M a seen).2).2) := by
  induction a with
  | nil => intro b seen; simp [dedupStep]
  | cons r a ih =>
    intro b seen
    by_cases hk : dedupKey M r ∈ seen
    · simp [dedupStep, hk, ih]
    · simp [dedupStep, hk, ih]

theorem fetchAux_eq_dedup_flatten (M : UnicodeModel) (resps : List ShardResp) :
    ∀ seen, fetchAux M resps seen = (dedupStep M (flattenOK resps) seen).1 := by
  induction resps with
  | nil => intro seen; simp [fetchAux, flattenOK, dedupStep]
  | cons r resps ih =>
    intro seen
    cases r with
    | httpError s => simpa [fetchAux, flattenOK, okData] using ih seen
    | ok data =>
      simp only [fetchAux, flattenOK, okData, List.filterMap_cons, List.flatten_cons, ih]
      rw [dedupStep_append]

theorem dedupStep_out_spec (M : UnicodeModel) (data : List Rec) :
    ∀ seen : List (Option String × String),
      (dedupStep M data seen).1.Sublist data ∧
      (∀ r ∈ (dedupStep M data seen).1, dedupKey M r ∉ seen ∧
        data.find? (fun x => decide (dedupKey M x = dedupKey M r)) = some r) ∧
      (dedupStep M data seen).1.Pairwise (fun a b => dedupKey M a ≠ dedupKey M b) ∧
      (∀ r ∈ data, dedupKey M r ∉ seen →
        ∃ r' ∈ (dedupStep M data seen).1, dedupKey M r' = dedupKey M r) := by
  induction data with
  | nil => intro seen; simp [dedupStep]
  | cons r data ih =>
    intro seen
    by_cases hk : dedupKey M r ∈ seen
    · obtain ⟨ihsub, ihmem, ihpw, ihcomp⟩ := ih seen
      rw [show dedupStep M (r :: data) seen = dedupStep M data seen by
        simp [dedupStep, hk]]
      refine ⟨ihsub.cons r, ?_, ihpw, ?_⟩
      · intro x hx
        refine ⟨(ihmem x hx).1, ?_⟩
        rw [List.find?_cons]
        have hne : ¬ dedupKey M r = dedupKey M x := by
          intro he; exact (ihmem x hx).1 (he ▸ hk)
        simp only [decide_eq_false hne]
        exact (ihmem x hx).2
      · intro x hx hxs
        rcases List.mem_cons.mp hx with rfl | hx'
        · exact absurd hk hxs
        · exact ihcomp x hx' hxs
    · obtain ⟨ihsub, ihmem, ihpw, ihcomp⟩ := ih (dedupKey M r :: seen)
      rw [show dedupStep M (r :: data) seen =
          (r :: (dedupStep M data (dedupKey M r :: seen)).1,
           (dedupStep M data (dedupKey M r :: seen)).2) by
        simp [dedupStep, hk]]
      refine ⟨ihsub.cons₂ r, ?_, ?_, ?_⟩
      · intro x hx
        rcases List.mem_cons.mp hx with rfl | hx'
        · refine ⟨hk, ?_⟩
          rw [List.find?_cons]
          simp
        · have h1 := (ihmem x hx').1
          have hne : dedupKey M x ∉ seen := fun hs => h1 (List.mem_cons_of_mem _ hs)
          have hner : ¬ dedupKey M r = dedupKey M x := by
            intro he; exact h1 (he ▸ List.mem_cons_self _ _)
          refine ⟨hne, ?_⟩
          rw [List.find?_cons]
          simp only [decide_eq_false hner]
          exact (ihmem x hx').2
      · refine List.Pairwise.cons ?_ ihpw
        intro x hx
        intro he; exact (ihmem x hx).1 (he ▸ List.mem_cons_self _ _)
      · intro x hx hxs
        rcases List.mem_cons.mp hx with hxeq | hx'
        · exact ⟨r, List.mem_cons_self _ _, by rw [hxeq]⟩
        · by_cases hxr : dedupKey M x = dedupKey M r
          · exact ⟨r, List.mem_cons_self _ _, hxr.symm⟩
          · obtain ⟨r', hr', he⟩ := ihcomp x hx' (by
              intro hmem
              rcases List.mem_cons.mp hmem with h | h
              · exact hxr h
              · exact hxs h)
            exact ⟨r', List.mem_cons_of_mem _ hr', he⟩

/-- C1: after the sharded fetch, no two retained records share the
`(subId, lower-cased speciesCode)` dedup key; the result is a
subsequence of the successful shards' records in shard order then
within-shard order; each retained record is the first-encountered record
of its key in that stream; and every fetched record's key is represented.
-/
theorem C1_fetch_dedup (M : UnicodeModel) (regions : List (Nat → ShardResp)) :
    (fetch_recent_notables_sharded M regions).Pairwise
      (fun a b => dedupKey M a ≠ dedupKey M b) ∧
    (fetch_recent_notables_sharded M regions).Sublist
      (flattenOK (regions.map (fun sh => sh 0))) ∧
    (∀ r ∈ fetch_recent_notables_sharded M regions,
      (flattenOK (regions.map (fun sh => sh 0))).find?
        (fun x => decide (dedupKey M x = dedupKey M r)) = some r) ∧
    (∀ r ∈ flattenOK (regions.map (fun sh => sh 0)),
      ∃ r' ∈ fetch_recent_notables_sharded M regions,
        dedupKey M r' = dedupKey M r) := by
  have he : fetch_recent_notables_sharded M regions =
      (dedupStep M (flattenOK (regions.map (fun sh => sh 0))) []).1 := by
    rw [fetch_recent_notables_sharded, fetch_from_responses,
      fetchAux_eq_dedup_flatten]
  obtain ⟨hsub, hmem, hpw, hcomp⟩ :=
    dedupStep_out_spec M (flattenOK (regions.map (fun sh => sh 0))) []
  rw [he]
  exact ⟨hpw, hsub, fun r hr => (hmem r hr).2,
    fun r hr => hcomp r hr (List.not_mem_nil _)⟩

/-- Witness for C1, the spec's scenario: two shards both return the
observation (subId "S100", species "snogoo"); the fetch keeps exactly one
record, and it is the first-encountered one. -/
theorem C1_fetch_dedup_witness :
    fetch_recent_notables_sharded asciiModel
      [fun _ => ShardResp.ok [fetchRecS100], fun _ => ShardResp.ok [fetchRecS100]] =
      [fetchRecS100] ∧
    (flattenOK ([fun _ => ShardResp.ok [fetchRecS100],
        fun _ => ShardResp.ok [fetchRecS100]].map (fun sh => sh 0))).find?
      (fun x => decide (dedupKey asciiModel x = dedupKey asciiModel fetchRecS100)) =
      some fetchRecS100 :=
  ⟨by decide,
    (C1_fetch_dedup asciiModel
      [fun _ => ShardResp.ok [fetchRecS100], fun _ => ShardResp.ok [fetchRecS100]]).2.2.1
      fetchRecS100 (by decide)⟩

/-! ### Order bridge and sorting lemmas -/

theorem ltCharList_iff_lex : ∀ as bs : List Char,
    ltCharList as bs = true ↔ List.Lex (· < ·) as bs := by
  intro as
  induction as with
  | nil =>
    intro bs
    cases bs with
    | nil =>
      simp only [ltCharList]
      exact iff_of_false (by simp) (List.Lex.not_nil_right _ _)
    | cons b bs =>
      exact iff_of_true (by simp [ltCharList]) List.Lex.nil
  | cons a as ih =>
    intro bs
    cases bs with
    | nil =>
      simp only [ltCharList]
      exact iff_of_false (by simp) (List.Lex.not_nil_right _ _)
    | cons b bs =>
      rcases lt_trichotomy a b with h | h | h
      · exact iff_of_true (by simp [ltCharList, h]) (List.Lex.rel h)
      · subst h
        simp only [ltCharList, if_neg (lt_irrefl a)]
        rw [ih]
        exact List.Lex.cons_iff.symm
      · have h1 : ¬ a < b := not_lt_of_gt h
        simp only [ltCharList, if_neg h1, if_pos h]
        refine iff_of_false (by simp) ?_
        intro hl
        cases hl with
        | rel h2 => exact h1 h2
        | cons h2 => exact lt_irrefl a h

theorem ltStr_iff (a b : String) : ltStr a b = true ↔ a < b := by
  rw [ltStr, ltCharList_iff_lex, String.lt_iff_toList_lt]
  exact Iff.rfl

theorem ltStr_false_iff (a b : String) : ltStr a b = false ↔ b ≤ a := by
  rw [← Bool.not_eq_true, ltStr_iff]
  exact not_lt

theorem insertDesc_perm (r : Rec) : ∀ l : List Rec, (insertDesc r l).Perm (r :: l) := by
  intro l
  induction l with
  | nil => simp [insertDesc]
  | cons x xs ih =>
    rw [insertDesc]
    by_cases h : ltStr (dtKey r) (dtKey x) = true
    · rw [if_pos h]
      exact (ih.cons x).trans (List.Perm.swap r x xs)
    · rw [if_neg h]

theorem sortDesc_perm (l : List Rec) : (sortDesc l).Perm l := by
  induction l with
  | nil => simp [sortDesc]
  | cons x xs ih =>
    have : sortDesc (x :: xs) = insertDesc x (sortDesc xs) := rfl
    rw [this]
    exact (insertDesc_perm x (sortDesc xs)).trans (ih.cons x)

theorem insertDesc_pairwise (r : Rec) (l : List Rec)
    (hp : l.Pairwise (fun a b => dtKey b ≤ dtKey a)) :
    (insertDesc r l).Pairwise (fun a b => dtKey b ≤ dtKey a) := by
  induction l with
  | nil => simp [insertDesc]
  | cons x xs ih =>
    rcases List.pairwise_cons.mp hp with ⟨hx, hxs⟩
    rw [insertDesc]
    by_cases h : ltStr (dtKey r) (dtKey x) = true
    · rw [if_pos h]
      refine List.pairwise_cons.mpr ⟨?_, ih hxs⟩
      intro y hy
      have hy' : y ∈ r :: xs := (insertDesc_perm r xs).mem_iff.mp hy
      rcases List.mem_cons.mp hy' with rfl | hy''
      · exact le_of_lt ((ltStr_iff _ _).mp h)
      · exact hx y hy''
    · rw [if_neg h]
      have hxr : dtKey x ≤ dtKey r :=
        (ltStr_false_iff _ _).mp (Bool.not_eq_true _ ▸ h)
      refine List.pairwise_cons.mpr ⟨?_, hp⟩
      intro y hy
      rcases List.mem_cons.mp hy with rfl | hy'
      · exact hxr
      · exact le_trans (hx y hy') hxr

theorem sortDesc_pairwise (l : List Rec) :
    (sortDesc l).Pairwise (fun a b => dtKey b ≤ dtKey a) := by
  induction l with
  | nil => simp [sortDesc]
  | cons x xs ih => exact insertDesc_pairwise x (sortDesc xs) ih

/-! ### Claims C2 and C3 -/

theorem filter_flatMap_partition (os : List String) (F : String → List Rec)
    (p : String → Rec → Bool)
    (hF : ∀ s' ∈ os, ∀ r ∈ F s', p s' r = true)
    (hdis : ∀ s s' r, p s r = true → p s' r = true → s = s')
    (hnd : os.Nodup) (s : String) :
    (os.flatMap F).filter (p s) = if s ∈ os then F s else [] := by
  induction os with
  | nil => simp
  | cons o os ih =>
    rcases List.nodup_cons.mp hnd with ⟨ho, hnd'⟩
    have hF' : ∀ s' ∈ os, ∀ r ∈ F s', p s' r = true :=
      fun s' hs' => hF s' (List.mem_cons_of_mem _ hs')
    rw [List.flatMap_cons, List.filter_append, ih hF' hnd']
    by_cases hso : s = o
    · subst hso
      rw [List.filter_eq_self.mpr (hF s (List.mem_cons_self _ _)), if_neg ho,
        if_pos (List.mem_cons_self _ _)]
      simp
    · have hnil : (F o).filter (p s) = [] := by
        rw [List.filter_eq_nil_iff]
        intro r hr hp
        exact hso (hdis s o r hp (hF o (List.mem_cons_self _ _) r hr))
      rw [hnil]
      simp [List.mem_cons, hso]

theorem bySpecies_disjoint (a b : String) (r : Rec)
    (ha : bySpecies a r = true) (hb : bySpecies b r = true) : a = b := by
  simp only [bySpecies, beq_iff_eq] at ha hb
  exact Option.some.inj (ha ▸ hb)

theorem filter_bySpecies_eq_nil (records : List Rec) (s : String) (hs : s ≠ "")
    (hno : s ∉ speciesOrder records) : records.filter (bySpecies s) = [] := by
  rw [List.filter_eq_nil_iff]
  intro r hr hp
  apply hno
  rw [speciesOrder, mem_firstDedup, List.mem_filterMap]
  refine ⟨r, hr, ?_⟩
  have hsc : r.speciesCode = some s := by simpa [bySpecies] using hp
  simp [speciesOf, hsc, hs]

theorem mem_sortDesc_filter (records : List Rec) (s' : String) (r : Rec)
    (hr : r ∈ sortDesc (records.filter (bySpecies s'))) : bySpecies s' r = true :=
  List.of_mem_filter ((sortDesc_perm _).mem_iff.mp hr)

theorem cap_records_zero (records : List Rec) (P : Int) :
    cap_records records P 0 = cap_phase1 records P := by
  simp [cap_records]

theorem cap_phase1_pos (records : List Rec) (P : Int) (hP : 0 < P) :
    cap_phase1 records P = (speciesOrder records).flatMap
      (fun s => (sortDesc (records.filter (bySpecies s))).take P.toNat) := by
  have h : ¬ P ≤ 0 := not_le.mpr hP
  simp [cap_phase1, h]

/-- C2 (amended): with per-species cap `P > 0` the retained records of a
species are exactly the first `P` of its group under the source's
descending sort of the raw `obsDt` strings (missing timestamps become
`""` and so sort last; an unparsable timestamp sorts by its literal
characters, not necessarily last); `P = 0` keeps the whole sorted group;
and for every global cap `G` the per-species count never exceeds `P`. -/
theorem C2_cap_per_species_amended (records : List Rec) (P : Int) (s : String)
    (hs : s ≠ "") (hP : 0 < P) :
    (cap_records records P 0).filter (bySpecies s) =
      (sortDesc (records.filter (bySpecies s))).take P.toNat ∧
    (cap_records records 0 0).filter (bySpecies s) =
      sortDesc (records.filter (bySpecies s)) ∧
    (∀ G : Int, (((cap_records records P G).filter (bySpecies s)).length : Int) ≤ P) := by
  have hdis := bySpecies_disjoint
  have key : ∀ F : String → List Rec,
      (∀ s' r, r ∈ F s' → bySpecies s' r = true) →
      ((speciesOrder records).flatMap F).filter (bySpecies s) =
        if s ∈ speciesOrder records then F s else [] := by
    intro F hF
    exact filter_flatMap_partition _ F bySpecies (fun s' _ r hr => hF s' r hr)
      hdis (nodup_firstDedup _) s
  have hF1 : ∀ s' r, r ∈ (sortDesc (records.filter (bySpecies s'))).take P.toNat →
      bySpecies s' r = true := by
    intro s' r hr
    exact mem_sortDesc_filter records s' r (List.take_subset _ _ hr)
  have hF2 : ∀ s' r, r ∈ sortDesc (records.filter (bySpecies s')) →
      bySpecies s' r = true := mem_sortDesc_filter records
  have conj1 : (cap_records records P 0).filter (bySpecies s) =
      (sortDesc (records.filter (bySpecies s))).take P.toNat := by
    rw [cap_records_zero, cap_phase1_pos records P hP, key _ hF1]
    by_cases hmem : s ∈ speciesOrder records
    · rw [if_pos hmem]
    · rw [if_neg hmem, filter_bySpecies_eq_nil records s hs hmem]
      simp [sortDesc]
  refine ⟨conj1, ?_, ?_⟩
  · rw [cap_records_zero,
      show cap_phase1 records 0 = (speciesOrder records).flatMap
        (fun s => sortDesc (records.filter (bySpecies s))) by simp [cap_phase1],
      key _ hF2]
    by_cases hmem : s ∈ speciesOrder records
    · rw [if_pos hmem]
    · rw [if_neg hmem, filter_bySpecies_eq_nil records s hs hmem]
      simp [sortDesc]
  · intro G
    have hlen1 : ((cap_phase1 records P).filter (bySpecies s)).length ≤ P.toNat := by
      have := conj1
      rw [cap_records_zero] at this
      rw [this]
      exact List.length_take_le _ _
    by_cases hc : 0 < G ∧ G < ((cap_phase1 records P).length : Int)
    · have heq : cap_records records P G =
          (sortDesc (cap_phase1 records P)).take G.toNat := by
        simp only [cap_records, if_pos hc]
      rw [heq]
      have hsub : (((sortDesc (cap_phase1 records P)).take G.toNat).filter
            (bySpecies s)).length ≤
          ((sortDesc (cap_phase1 records P)).filter (bySpecies s)).length :=
        ((List.take_sublist _ _).filter _).length_le
      have hperm : ((sortDesc (cap_phase1 records P)).filter (bySpecies s)).length =
          ((cap_phase1 records P).filter (bySpecies s)).length :=
        ((sortDesc_perm _).filter _).length_eq
      omega
    · have heq : cap_records records P G = cap_phase1 records P := by
        simp only [cap_records, if_neg hc]
      rw [heq]
      omega

theorem C2_cap_per_species_amended_witness :
    ("a" ≠ "") ∧ ((0 : Int) < 1) ∧
    (cap_records [capA10, capA20] 1 0).filter (bySpecies "a") =
      (sortDesc ([capA10, capA20].filter (bySpecies "a"))).take (1 : Int).toNat :=
  ⟨by decide, by decide,
    (C2_cap_per_species_amended [capA10, capA20] 1 "a" (by decide) (by decide)).1⟩

/-- C3 counterexample: species `a` has a dated record ("2024-01-10") and
one with the unparsable timestamp "zzz".  With the per-species cap off
and global cap 1, the source's global truncation sorts the raw `obsDt`
strings and keeps the "zzz" record over the fresher dated one, while the
claim's ordering by parsed timestamp (unparsable last) keeps the dated
record — so the global cap does not keep "the freshest by descending
timestamp". -/
theorem C3_counterexample :
    parse_obs_dt (dtKey capZ) = none ∧ (parse_obs_dt (dtKey capA10)).isSome = true ∧
    cap_records [capA10, capZ] 0 1 = [capZ] ∧
    cap_records_claim [capA10, capZ] 0 1 = [capA10] ∧
    cap_records [capA10, capZ] 0 1 ≠ cap_records_claim [capA10, capZ] 0 1 := by
  decide

/-- C3 (amended): with a global cap `G > 0` the output of `cap_records`
has at most `G` records; when the phase-1 (per-species) result exceeds
`G` the output is exactly its first `G` re-sorted under the stable
descending sort of the raw `obsDt` strings — the chronologically
freshest `G` when every timestamp has the source's fixed zero-padded
format, though an unparsable timestamp orders by its literal characters
and can be retained over a fresher dated record (see the
counterexample); and on the spec's scenario with per-species cap 1 and
global cap 1 over species `a` at days 10 and 20 and species `b` at day
15, the result is exactly the `a` record of day 20 — species `b`
is dropped. -/
theorem C3_cap_global_amended (records : List Rec) (P G : Int) (hG : 0 < G) :
    ((cap_records records P G).length : Int) ≤ G ∧
    (G < ((cap_records records P 0).length : Int) →
      cap_records records P G = (sortDesc (cap_records records P 0)).take G.toNat) ∧
    cap_records [capA10, capA20, capB15] 1 1 = [capA20] := by
  rw [cap_records_zero]
  refine ⟨?_, ?_, by decide⟩
  · by_cases hc : 0 < G ∧ G < ((cap_phase1 records P).length : Int)
    · have heq : cap_records records P G =
          (sortDesc (cap_phase1 records P)).take G.toNat := by
        simp only [cap_records, if_pos hc]
      rw [heq]
      have h1 : ((sortDesc (cap_phase1 records P)).take G.toNat).length ≤ G.toNat :=
        List.length_take_le _ _
      omega
    · have heq : cap_records records P G = cap_phase1 records P := by
        simp only [cap_records, if_neg hc]
      rw [heq]
      rcases not_and_or.mp hc with h | h
      · exact absurd hG h
      · omega
  · intro hlt
    have hc : 0 < G ∧ G < ((cap_phase1 records P).length : Int) := ⟨hG, hlt⟩
    simp only [cap_records, if_pos hc]

theorem C3_cap_global_amended_witness :
    ((0 : Int) < 1) ∧ cap_records [capA10, capA20, capB15] 1 1 = [capA20] :=
  ⟨by decide, (C3_cap_global_amended [] 1 1 (by decide)).2.2⟩

/-! ### Claims C4 and C10 -/

theorem find?_eq_head_filter (p : Rec → Bool) (l : List Rec) :
    l.find? p = (l.filter p).head? := by
  induction l with
  | nil => rfl
  | cons a l ih =>
    by_cases h : p a = true
    · simp only [List.find?_cons, List.filter_cons, h, if_true, List.head?_cons]
    · have hf : p a = false := by simpa using h
      simp only [List.find?_cons, List.filter_cons, hf, ih]
      simp

theorem dedupeBySub_sublist : ∀ (l : List Rec) (seen : List String),
    (dedupeBySub l seen).Sublist l := by
  intro l
  induction l with
  | nil => intro seen; simp [dedupeBySub]
  | cons r l ih =>
    intro seen
    cases hsub : r.subId with
    | none =>
      simp only [dedupeBySub, hsub]
      exact (ih seen).cons r
    | some cid =>
      by_cases h : cid = "" ∨ cid ∈ seen
      · simp only [dedupeBySub, hsub, if_pos h]
        exact (ih seen).cons r
      · simp only [dedupeBySub, hsub, if_neg h]
        exact (ih (cid :: seen)).cons₂ r

/-- C4 counterexample: `main` reloads the tier set of an unrequested
tier from any stale `aba4.json`/`aba5.json` on disk regardless of
`--codes`, and the empty-set abort fires only for requested tiers.  With
`--codes 5`, a stale tier-4 file listing `stseag1` and a fetched
`stseag1` record (also in the tier-5 set, so it survives the
allowed-species filter), the run succeeds (exit status `none`) and the
aggregation stage tags the marker tier 4 (code 4 is checked before 5) —
a tier outside the requested set. -/
theorem C4_counterexample :
    (4 : Nat) ∉ cfgStale.targetCodes ∧ envStale.staleCode4 ≠ [] ∧
    (runMain asciiModel envStale cfgStale).2 = none ∧
    (runMainMarkers asciiModel envStale cfgStale).map
      (fun mks => mks.map Marker.tier) = some [4] := by
  decide

/-- C4 (amended): every marker's species is in one of the two loaded
code sets, and its tier lies in the requested set provided the loaded
set of each unrequested tier is empty.  `main` guarantees that proviso
only when no stale `aba4.json`/`aba5.json` from an earlier run is on
disk: a requested tier's set comes from the current classification, but
an unrequested tier's set is reloaded from any such stale file, and a
marker can then carry a tier outside the requested set (see the
counterexample). -/
theorem C4_markers_tier_amended (M : UnicodeModel) (points : List Rec)
    (code4 code5 : List String) (requested : List Nat)
    (h4 : 4 ∉ requested → code4 = []) (h5 : 5 ∉ requested → code5 = []) :
    ∀ mk ∈ build_map_markers M points code4 code5,
      mk.tier ∈ requested ∧ (mk.speciesCode ∈ code4 ∨ mk.speciesCode ∈ code5) := by
  intro mk hmk
  rw [build_map_markers, List.mem_filterMap] at hmk
  obtain ⟨k, hk, hmo⟩ := hmk
  cases hgrp : points.filter (fun r => decide (recKey M r = some k)) with
  | nil =>
    rw [markerOfKey, hgrp] at hmo
    exact absurd hmo (by simp)
  | cons r0 grp' =>
    by_cases h4m : k.2.2 ∈ code4
    · rw [markerOfKey, hgrp] at hmo
      simp only [if_pos h4m] at hmo
      obtain rfl := Option.some.inj hmo
      refine ⟨?_, Or.inl h4m⟩
      by_contra hreq
      rw [h4 hreq] at h4m
      exact absurd h4m (List.not_mem_nil _)
    · by_cases h5m : k.2.2 ∈ code5
      · rw [markerOfKey, hgrp] at hmo
        simp only [if_neg h4m, if_pos h5m] at hmo
        obtain rfl := Option.some.inj hmo
        refine ⟨?_, Or.inr h5m⟩
        by_contra hreq
        rw [h5 hreq] at h5m
        exact absurd h5m (List.not_mem_nil _)
      · rw [markerOfKey, hgrp] at hmo
        simp only [if_neg h4m, if_neg h5m] at hmo
        exact absurd hmo (by simp)

theorem C4_markers_tier_amended_witness :
    (Marker.mk 41 73 "aaa" "First" "LocA" 4 [mkRec2, mkRec1]).tier ∈ [4, 5] ∧
    ((Marker.mk 41 73 "aaa" "First" "LocA" 4 [mkRec2, mkRec1]).speciesCode ∈ ["aaa"] ∨
     (Marker.mk 41 73 "aaa" "First" "LocA" 4 [mkRec2, mkRec1]).speciesCode ∈
       ([] : List String)) :=
  C4_markers_tier_amended asciiModel [mkRec1, mkRec2] ["aaa"] [] [4, 5]
    (by decide) (by decide) (Marker.mk 41 73 "aaa" "First" "LocA" 4 [mkRec2, mkRec1])
    (by decide)

/-- C10: for every aggregated marker, the displayed common name and
location name are taken from the first record of the group in input
order (`find?` over the points), not from the newest observation, while
the popup's checklist items are ordered newest-first (descending
`obsDt` key). -/
theorem C10_marker_meta_first_record (M : UnicodeModel) (points : List Rec)
    (code4 code5 : List String) :
    ∀ mk ∈ build_map_markers M points code4 code5,
      ∃ r0, points.find?
          (fun r => decide (recKey M r = some (mk.lat, mk.lng, mk.speciesCode))) =
            some r0 ∧
        mk.comName = r0.comName.getD "(unknown)" ∧
        mk.locName = r0.locName.getD "" ∧
        mk.items.Pairwise (fun a b => dtKey b ≤ dtKey a) := by
  intro mk hmk
  rw [build_map_markers, List.mem_filterMap] at hmk
  obtain ⟨k, hk, hmo⟩ := hmk
  obtain ⟨kla, kln, ksc⟩ := k
  cases hgrp : points.filter
      (fun r => decide (recKey M r = some (kla, kln, ksc))) with
  | nil =>
    rw [markerOfKey, hgrp] at hmo
    exact absurd hmo (by simp)
  | cons r0 grp' =>
    have hitems : (dedupeBySub (sortDesc (r0 :: grp')) []).Pairwise
        (fun a b => dtKey b ≤ dtKey a) :=
      (sortDesc_pairwise (r0 :: grp')).sublist (dedupeBySub_sublist _ _)
    have hfind : points.find?
        (fun r => decide (recKey M r = some (kla, kln, ksc))) = some r0 := by
      rw [find?_eq_head_filter, hgrp]
      rfl
    by_cases h4m : ksc ∈ code4
    · rw [markerOfKey, hgrp] at hmo
      simp only [if_pos h4m] at hmo
      obtain rfl := Option.some.inj hmo
      exact ⟨r0, hfind, rfl, rfl, hgrp ▸ hitems⟩
    · by_cases h5m : ksc ∈ code5
      · rw [markerOfKey, hgrp] at hmo
        simp only [if_neg h4m, if_pos h5m] at hmo
        obtain rfl := Option.some.inj hmo
        exact ⟨r0, hfind, rfl, rfl, hgrp ▸ hitems⟩
      · rw [markerOfKey, hgrp] at hmo
        simp only [if_neg h4m, if_neg h5m] at hmo
        exact absurd hmo (by simp)

theorem C10_marker_meta_first_record_witness :
    ∃ r0, [mkRec1, mkRec2].find? (fun r => decide (recKey asciiModel r =
        some ((Marker.mk 41 73 "aaa" "First" "LocA" 4 [mkRec2, mkRec1]).lat,
          (Marker.mk 41 73 "aaa" "First" "LocA" 4 [mkRec2, mkRec1]).lng,
          (Marker.mk 41 73 "aaa" "First" "LocA" 4 [mkRec2, mkRec1]).speciesCode))) =
        some r0 ∧
      (Marker.mk 41 73 "aaa" "First" "LocA" 4 [mkRec2, mkRec1]).comName =
        r0.comName.getD "(unknown)" ∧
      (Marker.mk 41 73 "aaa" "First" "LocA" 4 [mkRec2, mkRec1]).locName =
        r0.locName.getD "" ∧
      (Marker.mk 41 73 "aaa" "First" "LocA" 4 [mkRec2, mkRec1]).items.Pairwise
        (fun a b => dtKey b ≤ dtKey a) :=
  C10_marker_meta_first_record asciiModel [mkRec1, mkRec2] ["aaa"] []
    (Marker.mk 41 73 "aaa" "First" "LocA" 4 [mkRec2, mkRec1]) (by decide)

/-! ### Claim C5 -/

/-- C5 counterexample: an environment in which classification, fetch,
capping and rendering all succeed but the rendered page matches the
malformed-injection pattern.  The run aborts with status 4, yet the
classifier JSONs, `index.html` and `summary.json` have already been
written to the output directory. -/
theorem C5_counterexample :
    runMain asciiModel envInj cfgInj =
      (["aba5.json", "aba_allowed.json", "aba5.json", "index.html", "summary.json"],
        some 4) ∧
    "index.html" ∈ (runMain asciiModel envInj cfgInj).1 ∧
    "summary.json" ∈ (runMain asciiModel envInj cfgInj).1 := by
  decide

theorem abaJson_head (x y : String) : (("aba" ++ x) ++ y).data.head? = some 'a' := rfl

theorem index_ne_abaJson (c : Nat) : "index.html" ≠ "aba" ++ toString c ++ ".json" := by
  intro h
  have h2 : "index.html".data.head? = ("aba" ++ toString c ++ ".json").data.head? :=
    congrArg (fun s => s.data.head?) h
  rw [abaJson_head] at h2
  exact absurd h2 (by decide)

theorem summary_ne_abaJson (c : Nat) : "summary.json" ≠ "aba" ++ toString c ++ ".json" := by
  intro h
  have h2 : "summary.json".data.head? = ("aba" ++ toString c ++ ".json").data.head? :=
    congrArg (fun s => s.data.head?) h
  rw [abaJson_head] at h2
  exact absurd h2 (by decide)

theorem not_mem_w1 (ts : List Nat) (t1 t2 : List String)
    (h1 : t1 = ["aba5.json"] ∨ t1 = []) (h2 : t2 = ["unresolved_names.csv"] ∨ t2 = [])
    (y : String) (hy1 : y ≠ "aba_allowed.json") (hy2 : y ≠ "aba5.json")
    (hy3 : y ≠ "unresolved_names.csv")
    (hy4 : ∀ c : Nat, y ≠ "aba" ++ toString c ++ ".json") :
    y ∉ ts.map (fun c => "aba" ++ toString c ++ ".json") ++ ["aba_allowed.json"]
      ++ t1 ++ t2 := by
  intro hy
  simp only [List.mem_append, List.mem_map, List.mem_singleton] at hy
  rcases hy with ((⟨c, _, hc⟩ | hall) | ht1) | ht2
  · exact hy4 c hc.symm
  · exact hy1 hall
  · rcases h1 with rfl | rfl
    · exact hy2 (List.mem_singleton.mp ht1)
    · exact absurd ht1 (List.not_mem_nil y)
  · rcases h2 with rfl | rfl
    · exact hy3 (List.mem_singleton.mp ht2)
    · exact absurd ht2 (List.not_mem_nil y)


theorem not_mem_w1Writes (M : UnicodeModel) (cfg : MainCfg) (d : List (String × String))
    (cc nc : String) (rows : List (List (String × String))) (y : String)
    (hy1 : y ≠ "aba_allowed.json") (hy2 : y ≠ "aba5.json")
    (hy3 : y ≠ "unresolved_names.csv")
    (hy4 : ∀ c : Nat, y ≠ "aba" ++ toString c ++ ".json") :
    y ∉ w1Writes M cfg d cc nc rows := by
  apply not_mem_w1 _ _ _ _ _ y hy1 hy2 hy3 hy4
  · by_cases h : 5 ∈ cfg.targetCodes <;> simp [h]
  · by_cases h : unresolvedNames M d cfg.targetCodes cc nc rows ≠ [] <;> simp [h]

set_option maxHeartbeats 1000000 in
theorem runMain_cases (M : UnicodeModel) (env : MainEnv) (cfg : MainCfg) :
    ∃ w1 : List String,
      "index.html" ∉ w1 ∧ "summary.json" ∉ w1 ∧
      (runMain M env cfg = ([], some 2) ∨ runMain M env cfg = ([], some 3) ∨
       runMain M env cfg = (w1, some 6) ∨ runMain M env cfg = (w1, some 2) ∨
       runMain M env cfg = (w1, some 5) ∨
       runMain M env cfg = (w1 ++ ["index.html", "summary.json"], some 4) ∨
       runMain M env cfg = (w1 ++ ["index.html", "summary.json"], none)) := by
  generalize hout : runMain M env cfg = out
  simp only [runMain] at hout
  repeat' (split at hout)
  all_goals (
    first
    | exact ⟨[], by simp, by simp, Or.inl hout.symm⟩
    | exact ⟨[], by simp, by simp, Or.inr (Or.inl hout.symm)⟩
    | exact ⟨_, not_mem_w1Writes _ _ _ _ _ _ _ (by decide) (by decide) (by decide)
          index_ne_abaJson,
        not_mem_w1Writes _ _ _ _ _ _ _ (by decide) (by decide) (by decide)
          summary_ne_abaJson,
        Or.inr (Or.inr (Or.inl hout.symm))⟩
    | exact ⟨_, not_mem_w1Writes _ _ _ _ _ _ _ (by decide) (by decide) (by decide)
          index_ne_abaJson,
        not_mem_w1Writes _ _ _ _ _ _ _ (by decide) (by decide) (by decide)
          summary_ne_abaJson,
        Or.inr (Or.inr (Or.inr (Or.inl hout.symm)))⟩
    | exact ⟨_, not_mem_w1Writes _ _ _ _ _ _ _ (by decide) (by decide) (by decide)
          index_ne_abaJson,
        not_mem_w1Writes _ _ _ _ _ _ _ (by decide) (by decide) (by decide)
          summary_ne_abaJson,
        Or.inr (Or.inr (Or.inr (Or.inr (Or.inl hout.symm))))⟩
    | exact ⟨_, not_mem_w1Writes _ _ _ _ _ _ _ (by decide) (by decide) (by decide)
          index_ne_abaJson,
        not_mem_w1Writes _ _ _ _ _ _ _ (by decide) (by decide) (by decide)
          summary_ne_abaJson,
        Or.inr (Or.inr (Or.inr (Or.inr (Or.inr (Or.inl hout.symm)))))⟩
    | exact ⟨_, not_mem_w1Writes _ _ _ _ _ _ _ (by decide) (by decide) (by decide)
          index_ne_abaJson,
        not_mem_w1Writes _ _ _ _ _ _ _ (by decide) (by decide) (by decide)
          summary_ne_abaJson,
        Or.inr (Or.inr (Or.inr (Or.inr (Or.inr (Or.inr hout.symm)))))⟩)

/-- C5 (amended): aborts for a malformed `--codes` value, a missing input
file or undetectable columns write nothing; the classifier JSON sets are
written during classification, before the fetch, so the
missing-credential, empty-tier-set and hard-ceiling aborts leave them
written but never touch the map artifacts; and the malformed-injection
scan runs only after `index.html` and `summary.json` have been written,
so that abort path leaves the freshly written artifacts in place. -/
theorem C5_write_stage_order_amended (M : UnicodeModel) (env : MainEnv) (cfg : MainCfg) :
    ((runMain M env cfg).2 = some 3 → (runMain M env cfg).1 = []) ∧
    (((runMain M env cfg).2 = some 2 ∨ (runMain M env cfg).2 = some 5 ∨
        (runMain M env cfg).2 = some 6) →
      "index.html" ∉ (runMain M env cfg).1 ∧ "summary.json" ∉ (runMain M env cfg).1) ∧
    (((runMain M env cfg).2 = some 4 ∨ (runMain M env cfg).2 = none) →
      "index.html" ∈ (runMain M env cfg).1 ∧ "summary.json" ∈ (runMain M env cfg).1) := by
  obtain ⟨w1, hi, hs, hcase⟩ := runMain_cases M env cfg
  rcases hcase with h | h | h | h | h | h | h <;> rw [h] <;>
    exact ⟨by simp, fun hx => by simp_all, fun hx => by simp_all⟩

theorem C5_write_stage_order_amended_witness :
    ((runMain asciiModel envInj cfgInj).2 = some 4 ∨
      (runMain asciiModel envInj cfgInj).2 = none) ∧
    "index.html" ∈ (runMain asciiModel envInj cfgInj).1 ∧
    "summary.json" ∈ (runMain asciiModel envInj cfgInj).1 :=
  ⟨Or.inl (by decide),
    (C5_write_stage_order_amended asciiModel envInj cfgInj).2.2 (Or.inl (by decide))⟩

/-! ### Claim C9: idempotence of the name normalizer -/

/-- Characters with equal code points are equal. -/
theorem charToNat_inj (c d : Char) (h : c.toNat = d.toNat) : c = d :=
  Char.eq_of_val_eq (UInt32.ext h)

/-- The ASCII tables fix every kept character, and among the kept
characters exactly the space is whitespace. -/
theorem keepFixed_ascii : KeepFixed asciiModel := by
  intro c hc
  have hn : (97 ≤ c.toNat ∧ c.toNat ≤ 122) ∨ (48 ≤ c.toNat ∧ c.toNat ≤ 57) ∨
      c.toNat = 32 := by
    simpa [isKeep] using hc
  refine ⟨rfl, ?_, ?_⟩
  · have hno : ¬(65 ≤ c.toNat ∧ c.toNat ≤ 90) := by omega
    simp only [asciiModel]
    rw [if_neg hno]
  · simp only [asciiModel]
    constructor
    · intro hd
      have hdp : c.toNat = 32 ∨ c.toNat = 9 ∨ c.toNat = 10 ∨ c.toNat = 13 ∨
          c.toNat = 11 ∨ c.toNat = 12 := of_decide_eq_true hd
      have h32 : c.toNat = 32 := by omega
      exact charToNat_inj c ' ' (by rw [h32]; rfl)
    · intro he
      rw [he]
      decide

/-- Every character of a `runSubAux` output comes from the input or is
the substitute. -/
theorem runSubAux_mem (keep : Char → Bool) (sub : Char) :
    ∀ (l : List Char) (st : Bool) (c : Char),
      c ∈ runSubAux keep sub l st → c ∈ l ∨ c = sub := by
  intro l
  induction l with
  | nil =>
    intro st c hc
    simp [runSubAux] at hc
  | cons a t ih =>
    intro st c hc
    simp only [runSubAux] at hc
    by_cases hk : keep a = true
    · rw [if_pos hk] at hc
      rcases List.mem_cons.mp hc with hceq | hc2
      · rw [hceq]
        exact Or.inl (List.mem_cons_self _ _)
      · rcases ih false c hc2 with h1 | h1
        · exact Or.inl (List.mem_cons_of_mem _ h1)
        · exact Or.inr h1
    · rw [if_neg hk] at hc
      cases st with
      | true =>
        rw [if_pos rfl] at hc
        rcases ih true c hc with h1 | h1
        · exact Or.inl (List.mem_cons_of_mem _ h1)
        · exact Or.inr h1
      | false =>
        rw [if_neg (by simp)] at hc
        rcases List.mem_cons.mp hc with hceq | hc2
        · exact Or.inr hceq
        · rcases ih true c hc2 with h1 | h1
          · exact Or.inl (List.mem_cons_of_mem _ h1)
          · exact Or.inr h1

/-- Every character of a `runSubAux` output satisfies `keep` or is the
substitute. -/
theorem runSubAux_out (keep : Char → Bool) (sub : Char) :
    ∀ (l : List Char) (st : Bool) (c : Char),
      c ∈ runSubAux keep sub l st → keep c = true ∨ c = sub := by
  intro l
  induction l with
  | nil =>
    intro st c hc
    simp [runSubAux] at hc
  | cons a t ih =>
    intro st c hc
    simp only [runSubAux] at hc
    by_cases hk : keep a = true
    · rw [if_pos hk] at hc
      rcases List.mem_cons.mp hc with hceq | hc2
      · rw [hceq]
        exact Or.inl hk
      · exact ih false c hc2
    · rw [if_neg hk] at hc
      cases st with
      | true =>
        rw [if_pos rfl] at hc
        exact ih true c hc
      | false =>
        rw [if_neg (by simp)] at hc
        rcases List.mem_cons.mp hc with hceq | hc2
        · exact Or.inr hceq
        · exact ih true c hc2

/-- When `runSubAux` starts in run state (`inRun = true`), its output
never starts with the whitespace substitute: the head of the output is a
kept (non-whitespace) character. -/
theorem collapse_head_true (M : UnicodeModel) (h : KeepFixed M) :
    ∀ (l : List Char) (b : Char),
      (runSubAux (fun c => !M.isSpace c) ' ' l true).head? = some b → b ≠ ' ' := by
  intro l
  induction l with
  | nil =>
    intro b hb
    simp [runSubAux] at hb
  | cons a t ih =>
    intro b hb
    simp only [runSubAux] at hb
    by_cases hk : (!M.isSpace a) = true
    · rw [if_pos hk, List.head?_cons] at hb
      obtain rfl := Option.some.inj hb
      intro he
      rw [he] at hk
      have hsp : M.isSpace ' ' = true := (h ' ' (by decide)).2.2.mpr rfl
      rw [hsp] at hk
      simp at hk
    · rw [if_neg hk, if_true] at hb
      exact ih b hb

/-- The whitespace collapse never leaves two adjacent spaces. -/
theorem collapse_chain (M : UnicodeModel) (h : KeepFixed M) :
    ∀ (l : List Char) (st : Bool),
      (runSubAux (fun c => !M.isSpace c) ' ' l st).Chain' NoSpacePair := by
  intro l
  induction l with
  | nil =>
    intro st
    simp [runSubAux]
  | cons a t ih =>
    intro st
    by_cases hk : (!M.isSpace a) = true
    · simp only [runSubAux]
      rw [if_pos hk, List.chain'_cons']
      refine ⟨?_, ih false⟩
      intro b hb hab
      obtain ⟨ha, hb2⟩ := hab
      rw [ha] at hk
      have hsp : M.isSpace ' ' = true := (h ' ' (by decide)).2.2.mpr rfl
      rw [hsp] at hk
      simp at hk
    · cases st with
      | true =>
        simp only [runSubAux]
        rw [if_neg hk, if_true]
        exact ih true
      | false =>
        simp only [runSubAux]
        rw [if_neg hk, if_neg (by simp), List.chain'_cons']
        refine ⟨?_, ih true⟩
        intro b hb hab
        exact collapse_head_true M h t b (Option.mem_def.mp hb) hab.2

/-- The head of a `dropWhile` output fails the predicate. -/
theorem head_dropWhile_false (p : Char → Bool) :
    ∀ (l : List Char) (c : Char), (l.dropWhile p).head? = some c → p c = false := by
  intro l
  induction l with
  | nil =>
    intro c hc
    simp at hc
  | cons a t ih =>
    intro c hc
    rw [List.dropWhile_cons] at hc
    by_cases hp : p a = true
    · rw [if_pos hp] at hc
      exact ih c hc
    · rw [if_neg hp] at hc
      rw [List.head?_cons] at hc
      obtain rfl := Option.some.inj hc
      simpa using hp

/-- Output of the full strip-collapse tail of the pipeline is canonical,
given that its input has only kept characters and no two adjacent
spaces. -/
theorem pstripL_canon (M : UnicodeModel) (h : KeepFixed M) (C : List Char)
    (hc : ∀ c ∈ C, isKeep c = true) (hch : C.Chain' NoSpacePair) :
    IsCanon (pstripL M C) := by
  have hsp_space : M.isSpace ' ' = true := (h ' ' (by decide)).2.2.mpr rfl
  have hd1_sub : (C.dropWhile M.isSpace).Sublist C := (List.dropWhile_suffix _).sublist
  have hch1 : (C.dropWhile M.isSpace).Chain' NoSpacePair :=
    hch.suffix (List.dropWhile_suffix _)
  have hch1r : (C.dropWhile M.isSpace).reverse.Chain' NoSpacePair :=
    List.chain'_reverse.mpr (hch1.imp (fun _ _ hab hba => hab ⟨hba.2, hba.1⟩))
  have hch2 : ((C.dropWhile M.isSpace).reverse.dropWhile M.isSpace).Chain' NoSpacePair :=
    hch1r.suffix (List.dropWhile_suffix _)
  have hmem : ∀ c ∈ pstripL M C, c ∈ C := by
    intro c hcm
    rw [pstripL, List.mem_reverse] at hcm
    have h1 : c ∈ (C.dropWhile M.isSpace).reverse :=
      (List.dropWhile_suffix _).sublist.subset hcm
    rw [List.mem_reverse] at h1
    exact hd1_sub.subset h1
  refine ⟨fun c hcm => hc c (hmem c hcm), ?_, ?_, ?_⟩
  · rw [pstripL]
    exact List.chain'_reverse.mpr (hch2.imp (fun _ _ hab hba => hab ⟨hba.2, hba.1⟩))
  · rw [pstripL, List.head?_reverse]
    intro hcon
    have hne : (C.dropWhile M.isSpace).reverse.dropWhile M.isSpace ≠ [] := by
      intro hnil
      rw [hnil] at hcon
      simp at hcon
    have hsuf : (C.dropWhile M.isSpace).reverse.dropWhile M.isSpace <:+
        (C.dropWhile M.isSpace).reverse := List.dropWhile_suffix _
    obtain ⟨u, hu⟩ := hsuf
    have h2 : ((C.dropWhile M.isSpace).reverse).getLast? = some ' ' := by
      rw [← hu, List.getLast?_append_of_ne_nil u hne]
      exact hcon
    rw [List.getLast?_reverse] at h2
    have h3 := head_dropWhile_false M.isSpace C ' ' h2
    rw [hsp_space] at h3
    simp at h3
  · rw [pstripL, List.getLast?_reverse]
    intro hcon
    have h3 := head_dropWhile_false M.isSpace _ ' ' hcon
    rw [hsp_space] at h3
    simp at h3

/-- The normalizer always produces a canonical character list. -/
theorem normalizeL_canon (M : UnicodeModel) (h : KeepFixed M) (l : List Char) :
    IsCanon (normalizeL M l) := by
  have hP : ∀ c ∈ punctToSpace (removeParens (lowerL M (pstripL M (nfkdL M l)))),
      isKeep c = true := by
    intro c hcm
    rcases runSubAux_out isKeep ' ' _ false c hcm with h1 | h1
    · exact h1
    · rw [h1]; decide
  have hC : ∀ c ∈ collapseSpaces M
      (punctToSpace (removeParens (lowerL M (pstripL M (nfkdL M l))))),
      isKeep c = true := by
    intro c hcm
    rcases runSubAux_mem (fun c => !M.isSpace c) ' ' _ false c hcm with h1 | h1
    · exact hP c h1
    · rw [h1]; decide
  have hCh : (collapseSpaces M
      (punctToSpace (removeParens (lowerL M (pstripL M (nfkdL M l)))))).Chain'
      NoSpacePair := collapse_chain M h _ false
  exact pstripL_canon M h _ hC hCh

/-- NFKD fixes a list of kept characters. -/
theorem nfkdL_fix (M : UnicodeModel) (h : KeepFixed M) :
    ∀ l : List Char, (∀ c ∈ l, isKeep c = true) → nfkdL M l = l := by
  intro l
  induction l with
  | nil =>
    intro _
    rfl
  | cons a t ih =>
    intro hc
    have h1 : M.nfkd a = [a] := (h a (hc a (List.mem_cons_self _ _))).1
    have h2 := ih (fun c hc2 => hc c (List.mem_cons_of_mem _ hc2))
    simp only [nfkdL] at h2 ⊢
    rw [List.flatMap_cons, h1, h2]
    rfl

/-- Lower-casing fixes a list of kept characters. -/
theorem lowerL_fix (M : UnicodeModel) (h : KeepFixed M) :
    ∀ l : List Char, (∀ c ∈ l, isKeep c = true) → lowerL M l = l := by
  intro l
  induction l with
  | nil =>
    intro _
    rfl
  | cons a t ih =>
    intro hc
    have h1 : M.lower a = a := (h a (hc a (List.mem_cons_self _ _))).2.1
    have h2 := ih (fun c hc2 => hc c (List.mem_cons_of_mem _ hc2))
    simp only [lowerL] at h2 ⊢
    rw [List.map_cons, h1, h2]

/-- Parenthetical removal fixes a list of kept characters, which contains
no opening parenthesis. -/
theorem removeParens_fix :
    ∀ l : List Char, (∀ c ∈ l, isKeep c = true) → removeParens l = l := by
  intro l
  induction l with
  | nil =>
    intro _
    rfl
  | cons a t ih =>
    intro hc
    have hka : isKeep a = true := hc a (List.mem_cons_self _ _)
    have ha : a ≠ '(' := by
      intro he
      rw [he] at hka
      exact absurd hka (by decide)
    have h2 := ih (fun c hc2 => hc c (List.mem_cons_of_mem _ hc2))
    simp only [removeParens] at h2 ⊢
    simp only [removeParensAux]
    rw [if_neg ha, h2]

/-- A run-collapsing substitution fixes a list whose characters all
satisfy the kept class. -/
theorem runSubAux_keep_fix (keep : Char → Bool) (sub : Char) :
    ∀ (l : List Char) (st : Bool), (∀ c ∈ l, keep c = true) →
      runSubAux keep sub l st = l := by
  intro l
  induction l with
  | nil =>
    intro st _
    rfl
  | cons a t ih =>
    intro st hc
    simp only [runSubAux]
    rw [if_pos (hc a (List.mem_cons_self _ _)),
      ih false (fun c hc2 => hc c (List.mem_cons_of_mem _ hc2))]

/-- The whitespace collapse fixes a canonical-shape list: all characters
kept, no two adjacent spaces, and (when starting in run state) no leading
space. -/
theorem collapse_fix (M : UnicodeModel) (h : KeepFixed M) :
    ∀ (l : List Char) (st : Bool),
      (∀ c ∈ l, isKeep c = true) → l.Chain' NoSpacePair →
      (st = true → l.head? ≠ some ' ') →
      runSubAux (fun c => !M.isSpace c) ' ' l st = l := by
  intro l
  induction l with
  | nil =>
    intro st _ _ _
    rfl
  | cons a t ih =>
    intro st hc hch hst
    have hka : isKeep a = true := hc a (List.mem_cons_self _ _)
    have hctail : ∀ c ∈ t, isKeep c = true :=
      fun c hc2 => hc c (List.mem_cons_of_mem _ hc2)
    have hchtail : t.Chain' NoSpacePair := (List.chain'_cons'.mp hch).2
    by_cases hsp : M.isSpace a = true
    · have ha : a = ' ' := ((h a hka).2.2).mp hsp
      cases st with
      | true =>
        exact absurd (show (a :: t).head? = some ' ' by rw [List.head?_cons, ha])
          (hst rfl)
      | false =>
        simp only [runSubAux]
        rw [if_neg (by simp [hsp]), if_neg (by simp)]
        have hht : t.head? ≠ some ' ' := by
          intro hcon
          have hns := (List.chain'_cons'.mp hch).1 ' ' (Option.mem_def.mpr hcon)
          rw [ha] at hns
          exact hns ⟨rfl, rfl⟩
        rw [ih true hctail hchtail (fun _ => hht), ha]
    · have hf : M.isSpace a = false := by simpa using hsp
      simp only [runSubAux]
      rw [if_pos (by simp [hf]),
        ih false hctail hchtail (fun hco => absurd hco (by simp))]

/-- Stripping leading whitespace fixes a list of kept characters with no
leading space. -/
theorem dropWhile_keep_fix (M : UnicodeModel) (h : KeepFixed M) (l : List Char)
    (hc : ∀ c ∈ l, isKeep c = true) (hh : l.head? ≠ some ' ') :
    l.dropWhile M.isSpace = l := by
  cases l with
  | nil => rfl
  | cons a t =>
    have hns : ¬(M.isSpace a = true) := by
      intro hsp
      have ha : a = ' ' := ((h a (hc a (List.mem_cons_self _ _))).2.2).mp hsp
      exact hh (by rw [List.head?_cons, ha])
    rw [List.dropWhile_cons, if_neg hns]

/-- Python strip fixes a list of kept characters with no leading or
trailing space. -/
theorem pstripL_fix (M : UnicodeModel) (h : KeepFixed M) (l : List Char)
    (hc : ∀ c ∈ l, isKeep c = true) (hh : l.head? ≠ some ' ')
    (hl : l.getLast? ≠ some ' ') : pstripL M l = l := by
  have hh2 : l.reverse.head? ≠ some ' ' := by
    rw [List.head?_reverse]
    exact hl
  rw [pstripL, dropWhile_keep_fix M h l hc hh,
    dropWhile_keep_fix M h l.reverse (fun c hc2 => hc c (List.mem_reverse.mp hc2)) hh2,
    List.reverse_reverse]

/-- A canonical list is a fixed point of the whole normalization
pipeline. -/
theorem normalizeL_fix (M : UnicodeModel) (h : KeepFixed M) (l : List Char)
    (hcanon : IsCanon l) : normalizeL M l = l := by
  obtain ⟨hc, hch, hh, hl⟩ := hcanon
  rw [normalizeL, nfkdL_fix M h l hc, pstripL_fix M h l hc hh hl,
    lowerL_fix M h l hc, removeParens_fix l hc,
    show punctToSpace l = l from runSubAux_keep_fix isKeep ' ' l false hc,
    show collapseSpaces M l = l from
      collapse_fix M h l false hc hch (fun hco => absurd hco (by simp))]
  exact pstripL_fix M h l hc hh hl

/-- C9: the name normalizer is idempotent — for every input `x`,
`normalize_name (normalize_name x)` equals `normalize_name x` — and
`None` or empty input yields the empty string.  Stated for any Unicode
tables fixing the kept characters `[a-z0-9 ]`, as the real tables do. -/
theorem C9_normalize_idempotent (M : UnicodeModel) (h : KeepFixed M) :
    (∀ x : Option String,
        normalize_name M (some (normalize_name M x)) = normalize_name M x) ∧
    normalize_name M none = "" ∧ normalize_name M (some "") = "" := by
  refine ⟨?_, rfl, rfl⟩
  intro x
  cases x with
  | none => rfl
  | some s =>
    by_cases hs : s = ""
    · rw [hs]
      rfl
    · have hne1 : normalize_name M (some s) = ⟨normalizeL M s.data⟩ := by
        simp only [normalize_name, if_neg hs]
      rw [hne1]
      by_cases he : normalizeL M s.data = []
      · rw [he]
        rfl
      · have hne2 : (⟨normalizeL M s.data⟩ : String) ≠ "" :=
          fun hcon => he (congrArg String.data hcon)
        simp only [normalize_name, if_neg hne2]
        exact congrArg (fun l => (⟨l⟩ : String))
          (normalizeL_fix M h _ (normalizeL_canon M h s.data))

/-- Witness: the idempotence theorem at the ASCII tables and a concrete
messy string. -/
theorem C9_normalize_idempotent_witness :
    KeepFixed asciiModel ∧
      normalize_name asciiModel
          (some (normalize_name asciiModel (some "  Grace()s   WARBLER x2 "))) =
        normalize_name asciiModel (some "  Grace()s   WARBLER x2 ") :=
  ⟨keepFixed_ascii,
    (C9_normalize_idempotent asciiModel keepFixed_ascii).1
      (some "  Grace()s   WARBLER x2 ")⟩
